import Mathlib

/-!
A shallow embedding of string_table (`StringTable.h`, `StringTable.cpp`).

The table interns zero-terminated strings.  Bytes live in fixed-size chunks
(`detail::StringData<CHUNK_SIZE>`), a pointer into chunk memory is a pair
(chunk index, offset), `m_id_to_str` is the id -> pointer vector and
`m_str_to_id_map` is the content-keyed `std::unordered_map`.

Conventions of the embedding
* `detail::ID` is `uint32_t`: values are `Nat`, narrowing casts are `% 2 ^ 32`.
* `std::size_t` is taken to be 64 bits wide: arithmetic is `% 2 ^ 64`.
* An input string is the list of the `str_size` bytes found at `str`; the
  buffer is followed by a zero terminator (`std::string::c_str`, C literals).
* The reader/writer lock is not modelled: every call is one atomic step, except in
  `GetThread` and `Race`, where `get` is split at the point between its shared-lock
  lookup and its exclusive-lock insertion.
* `std::unordered_map` is modelled by its observable behaviour: a list of
  (key pointer, id) pairs in which keys are compared with `CStringEqual`
  (`strcmp` on the bytes the pointers designate); `CStringHasher` is a function
  of the same zero-terminated content, so it does not affect lookups.
-/

namespace string_table

/-- One `char` of chunk memory or of an input string. -/
abbrev Byte := Fin 256

namespace detail

/-- Width of `std::size_t` arithmetic. -/
def SIZE_MOD : Nat := 2 ^ 64

/-- Width of `detail::ID` (`uint32_t`) arithmetic. -/
def ID_MOD : Nat := 2 ^ 32

/-- The value of `sizeof(detail::ID)`. -/
def ID_SIZE : Nat := 4

/-- The value of `std::numeric_limits<detail::ID>::max()`. -/
def ID_MAX : Nat := 2 ^ 32 - 1

/-- The constant `detail::CHUNK_SIZE`. -/
def CHUNK_SIZE : Nat := 4096

/-- The struct `detail::StringData<CHUNK_SIZE>`: a buffer and its write cursor. -/
structure StringData where
  data : List Byte
  pos : Nat
deriving DecidableEq

/-- The constructor `StringData()`: `new char[chunk_size]` followed by `memset(.., 0, ..)`,
with `pos = 0`. -/
def StringData.new : StringData :=
  { data := List.replicate CHUNK_SIZE 0, pos := 0 }

/-- The method `StringData::write`: `memcpy(start, str, size)` at the cursor, then
`pos += aligned_size` (in `uint32_t`).  Returns the updated chunk and the offset of
`start` inside the buffer.  The copy replaces the `size` bytes from the cursor on; the
caller has checked `has_space`, so it stays inside the buffer. -/
def StringData.write (c : StringData) (str : List Byte) (size aligned_size : Nat) :
    StringData × Nat :=
  let start := c.pos
  ({ data := c.data.take start ++ str.take size ++ c.data.drop (start + size),
     pos := (c.pos + aligned_size) % ID_MOD }, start)

/-- The method `StringData::has_space`: `(chunk_size - sizeof(ID) - pos) >= size`.  The
left-hand side is computed in unsigned `size_t` arithmetic, so the subtraction of `pos`
wraps around: `a - b` is `(a + (2 ^ 64 - b % 2 ^ 64)) % 2 ^ 64`. -/
def StringData.has_space (c : StringData) (size : Nat) : Bool :=
  decide (size ≤ ((CHUNK_SIZE - ID_SIZE) + (SIZE_MOD - c.pos % SIZE_MOD)) % SIZE_MOD)

end detail

open detail

/-- A `const char*` into chunk memory: which chunk, and the offset inside its buffer. -/
structure Ptr where
  chunk : Nat
  off : Nat
deriving DecidableEq

/-- The class `StringView`.  `m_table` is `true` for a handle that points to the table
that issued it and `false` for `nullptr`. -/
structure StringView where
  m_table : Bool
  m_id : Nat
deriving DecidableEq

/-- The default constructor `StringView()`: `m_table(nullptr), m_id(0)`. -/
def StringView.default : StringView := { m_table := false, m_id := 0 }

/-- The conversion `StringView::operator bool`: `m_id != 0`. -/
def StringView.toBool (sv : StringView) : Bool := decide (sv.m_id ≠ 0)

/-- The comparison `StringView::operator ==`. -/
def StringView.eq (a b : StringView) : Bool :=
  decide (a.m_table = b.m_table) && decide (a.m_id = b.m_id)

/-- The zero-terminated string a `const char*` argument designates: the bytes before the
first zero byte of the buffer (the buffer `str` is followed by a terminator). -/
def c_string (str : List Byte) : List Byte := str.takeWhile (fun b => decide (b ≠ 0))

/-- The private data members of `Table`. -/
structure Table where
  m_chunks : List StringData
  m_id_to_str : List Ptr
  m_str_to_id_map : List (Ptr × Nat)
deriving DecidableEq

/-- The zero-terminated string found at pointer `p` in the given chunk memory. -/
def cstrAt (chunks : List StringData) (p : Ptr) : List Byte :=
  match chunks[p.chunk]? with
  | some c => c_string (c.data.drop p.off)
  | none => []

/-- The `n` raw bytes found at pointer `p`. -/
def bytesAt (chunks : List StringData) (p : Ptr) (n : Nat) : List Byte :=
  match chunks[p.chunk]? with
  | some c => (c.data.drop p.off).take n
  | none => []

/-- The lookup `m_str_to_id_map.find(str)`: the entry whose key compares equal to `str`
under `CStringEqual`, i.e. `strcmp(key, str) == 0`. -/
def mapFind (chunks : List StringData) (m : List (Ptr × Nat)) (content : List Byte) :
    Option (Ptr × Nat) :=
  m.find? (fun e => decide (cstrAt chunks e.1 = content))

/-- The insertion `m_str_to_id_map.emplace(key, id)`: nothing is inserted when a key
comparing equal is already present. -/
def mapEmplace (chunks : List StringData) (m : List (Ptr × Nat)) (key : Ptr) (id : Nat) :
    List (Ptr × Nat) :=
  match mapFind chunks m (cstrAt chunks key) with
  | some _ => m
  | none => m ++ [(key, id)]

namespace Table

/-- The method `Table::find(const char*)` (the `std::string` overload passes `c_str()`). -/
def find (t : Table) (str : List Byte) : StringView :=
  match mapFind t.m_chunks t.m_str_to_id_map (c_string str) with
  | none => StringView.default
  | some e => { m_table := true, m_id := e.2 }

/-- The method `Table::alloc_chunk`: returns the updated table and the chunk index. -/
def alloc_chunk (t : Table) (str_size : Nat) : Table × Nat :=
  let lacks : Bool :=
    match t.m_chunks.getLast? with
    | none => true
    | some back => !back.has_space str_size
  if lacks then
    let next_chunk_id := t.m_chunks.length
    if next_chunk_id > ID_MAX then
      (t, (next_chunk_id - 1) % ID_MOD)
    else
      ({ t with m_chunks := t.m_chunks ++ [StringData.new] }, next_chunk_id % ID_MOD)
  else
    (t, (t.m_chunks.length - 1) % ID_MOD)

/-- The value `aligned_size` that `Table::get` computes from `str_size`. -/
def aligned_size (str_size : Nat) : Nat :=
  let mod := ((str_size + 1) % SIZE_MOD) &&& (ID_SIZE - 1)
  let aligned := (str_size + 1) % SIZE_MOD
  if mod ≠ 0 then (aligned + (ID_SIZE - mod)) % SIZE_MOD else aligned

/-- The method `Table::get(const char* str, size_t str_size)` with `str_size = str.length`
(both public overloads call it so).  Returns the updated table and the handle. -/
def get (t : Table) (str : List Byte) : Table × StringView :=
  let sv := t.find str
  if sv.toBool then (t, sv)
  else
    let aligned := aligned_size str.length
    if aligned > CHUNK_SIZE || aligned > ID_MAX || t.m_id_to_str.length == ID_MAX then
      (t, StringView.default)
    else
      let cast_str_size := str.length % ID_MOD
      let cast_aligned_size := aligned % ID_MOD
      let r := t.alloc_chunk cast_aligned_size
      let t1 := r.1
      let chunk_id := r.2
      match t1.m_chunks[chunk_id]? with
      | none => (t1, StringView.default) -- not reached: `alloc_chunk` returns an index in range
      | some chunk =>
        if !chunk.has_space cast_aligned_size then (t1, StringView.default)
        else
          let w := chunk.write str cast_str_size cast_aligned_size
          let new_str : Ptr := { chunk := chunk_id, off := w.2 }
          let new_id := t1.m_id_to_str.length % ID_MOD
          let chunks := t1.m_chunks.set chunk_id w.1
          ({ m_chunks := chunks,
             m_id_to_str := t1.m_id_to_str ++ [new_str],
             m_str_to_id_map := mapEmplace chunks t1.m_str_to_id_map new_str new_id },
           { m_table := true, m_id := new_id })

/-- The method `Table::get(detail::ID id)`: the stored pointer, or `nullptr`. -/
def getById (t : Table) (id : Nat) : Option Ptr :=
  if id < t.m_id_to_str.length then t.m_id_to_str[id]? else none

/-- A table object before its constructor body has run: all members empty. -/
def empty : Table := { m_chunks := [], m_id_to_str := [], m_str_to_id_map := [] }

/-- The constructor `Table::Table()`: `get("")` on the empty members. -/
def new : Table := (empty.get []).1

end Table

/-- The method `StringView::c_str`: `m_table != nullptr ? m_table->get(m_id) : nullptr`. -/
def StringView.c_str (sv : StringView) (t : Table) : Option Ptr :=
  if sv.m_table then t.getById sv.m_id else none

/-- The zero-terminated bytes a handle resolves to (reading the `const char*` from
`c_str`), or `none` for `nullptr`. -/
def StringView.resolve (sv : StringView) (t : Table) : Option (List Byte) :=
  (sv.c_str t).map (cstrAt t.m_chunks)

/-- The zero-terminated bytes identifier `id` resolves to through `Table::get(id)`. -/
def Table.resolveId (t : Table) (id : Nat) : Option (List Byte) :=
  (t.getById id).map (cstrAt t.m_chunks)

/-- A call of the public interface. -/
inductive Call where
  | get (str : List Byte)
  | find (str : List Byte)

/-- The argument of a call. -/
def Call.arg : Call → List Byte
  | .get s => s
  | .find s => s

/-- One call on a table: the table afterwards and the handle returned.  `find` is a
`const` method, it hands the table back as it received it. -/
def Table.step (t : Table) : Call → Table × StringView
  | .get s => t.get s
  | .find s => (t, t.find s)

/-- A string argument fits the address space: its bytes, the terminator and the padding
up to the next multiple of `sizeof(ID)` are counted without `size_t` wrap-around. -/
def Addressable (str : List Byte) : Prop := str.length + ID_SIZE < SIZE_MOD

/-- Table states reachable from construction by `get` and `find` calls. -/
inductive Reachable : Table → Prop where
  | init : Reachable Table.new
  | step {t : Table} (c : Call) : Reachable t → Addressable c.arg → Reachable (t.step c).1

/-! ## Vocabulary of the statements: invariants, branch descriptions, sample inputs -/

/-- The bytes of `d` before index `n`, read from offset `off`, contain a terminator. -/
def TermAt (d : List Byte) (n off : Nat) : Prop := (0 : Byte) ∈ (d.take n).drop off

/-- Well-formedness of one chunk: the buffer has `CHUNK_SIZE` bytes, the cursor leaves
the reserved `sizeof(ID)` bytes free, and nothing has been written from the cursor on. -/
structure ChunkOk (c : StringData) : Prop where
  len : c.data.length = CHUNK_SIZE
  pos_le : c.pos + ID_SIZE ≤ CHUNK_SIZE
  zero : ∀ b ∈ c.data.drop c.pos, b = 0

/-- The effect of `write` when the caller has checked `has_space(aligned_size)` and
`size < aligned_size`. -/
structure WriteFacts (c : StringData) (str : List Byte) (a : Nat) (w : StringData × Nat) :
    Prop where
  off : w.2 = c.pos
  pos : w.1.pos = c.pos + a
  data : w.1.data = c.data.take c.pos ++ str ++ c.data.drop (c.pos + str.length)
  ok : ChunkOk w.1
  pre : w.1.data.take c.pos = c.data.take c.pos
  raw : (w.1.data.drop c.pos).take str.length = str
  pad : ∀ b ∈ (w.1.data.drop (c.pos + str.length)).take (a - str.length), b = 0
  cstr : c_string (w.1.data.drop c.pos) = c_string str
  term : TermAt w.1.data w.1.pos c.pos

/-- The three ways `alloc_chunk` returns: the last chunk has room; it has none and the
chunk vector is at its limit; a fresh chunk is appended. -/
inductive AllocOutcome (t : Table) (n : Nat) : Table × Nat → Prop where
  | reuse (pre : List StringData) (c : StringData) :
      t.m_chunks = pre ++ [c] → c.has_space n = true → AllocOutcome t n (t, pre.length)
  | full (pre : List StringData) (c : StringData) :
      t.m_chunks = pre ++ [c] → c.has_space n = false → t.m_chunks.length = ID_MOD →
      AllocOutcome t n (t, pre.length)
  | fresh :
      (∀ back, t.m_chunks.getLast? = some back → back.has_space n = false) →
      t.m_chunks.length ≤ ID_MAX →
      AllocOutcome t n
        ({ t with m_chunks := t.m_chunks ++ [StringData.new] }, t.m_chunks.length)

/-- The table `get` builds on its insertion path, once the chunk vector is `pre ++ [c]`
with `c` the chunk `alloc_chunk` chose. -/
def insertAt (t : Table) (pre : List StringData) (c : StringData) (str : List Byte) : Table :=
  let a := Table.aligned_size str.length
  let w := c.write str (str.length % ID_MOD) (a % ID_MOD)
  let chunks := pre ++ [w.1]
  let new_str : Ptr := { chunk := pre.length, off := c.pos }
  { m_chunks := chunks,
    m_id_to_str := t.m_id_to_str ++ [new_str],
    m_str_to_id_map := mapEmplace chunks t.m_str_to_id_map new_str t.m_id_to_str.length }

/-- The five ways `get` returns. -/
inductive GetOutcome (t : Table) (str : List Byte) : Table × StringView → Prop where
  | hit : (t.find str).toBool = true → GetOutcome t str (t, t.find str)
  | reject : (t.find str).toBool = false →
      (CHUNK_SIZE < Table.aligned_size str.length ∨ t.m_id_to_str.length = ID_MAX) →
      GetOutcome t str (t, StringView.default)
  | full (pre : List StringData) (c : StringData) : (t.find str).toBool = false →
      Table.aligned_size str.length ≤ CHUNK_SIZE → t.m_id_to_str.length < ID_MAX →
      t.m_chunks = pre ++ [c] → c.has_space (Table.aligned_size str.length) = false →
      t.m_chunks.length = ID_MOD →
      GetOutcome t str (t, StringView.default)
  | leak : (t.find str).toBool = false →
      Table.aligned_size str.length ≤ CHUNK_SIZE → t.m_id_to_str.length < ID_MAX →
      (∀ back, t.m_chunks.getLast? = some back →
        back.has_space (Table.aligned_size str.length) = false) →
      t.m_chunks.length ≤ ID_MAX →
      StringData.new.has_space (Table.aligned_size str.length) = false →
      GetOutcome t str
        ({ t with m_chunks := t.m_chunks ++ [StringData.new] }, StringView.default)
  | insert (pre : List StringData) (c : StringData) : (t.find str).toBool = false →
      Table.aligned_size str.length ≤ CHUNK_SIZE → t.m_id_to_str.length < ID_MAX →
      (t.m_chunks = pre ++ [c] ∨
        (t.m_chunks = pre ∧ c = StringData.new ∧ t.m_chunks.length ≤ ID_MAX ∧
          ∀ back, t.m_chunks.getLast? = some back →
            back.has_space (Table.aligned_size str.length) = false)) →
      c.has_space (Table.aligned_size str.length) = true →
      GetOutcome t str (insertAt t pre c str, { m_table := true, m_id := t.m_id_to_str.length })

/-- Chunk memory `new` extends chunk memory `old`: every old chunk is still there, its
cursor has not moved back and the bytes before its old cursor are the same. -/
def ChunksExtend (old new : List StringData) : Prop :=
  ∀ (i : Nat) (c0 : StringData), old[i]? = some c0 →
    ∃ c1 : StringData, new[i]? = some c1 ∧ c1.data.take c0.pos = c0.data.take c0.pos ∧ c0.pos ≤ c1.pos

/-- The entry at pointer `p` is terminated inside the committed part of its chunk. -/
def EntryOk (chunks : List StringData) (p : Ptr) : Prop :=
  ∃ c, chunks[p.chunk]? = some c ∧ TermAt c.data c.pos p.off

/-- The invariant of the three guarded members. -/
structure Inv (t : Table) : Prop where
  chunks_ok : ∀ c ∈ t.m_chunks, ChunkOk c
  chunks_len : t.m_chunks.length ≤ ID_MOD
  ids_len : t.m_id_to_str.length ≤ ID_MAX
  entries : ∀ p ∈ t.m_id_to_str, EntryOk t.m_chunks p
  map_ids : ∀ e ∈ t.m_str_to_id_map, t.m_id_to_str[e.2]? = some e.1
  map_cover : ∀ p ∈ t.m_id_to_str,
    ∃ e ∈ t.m_str_to_id_map, cstrAt t.m_chunks e.1 = cstrAt t.m_chunks p

/-- What the insertion path of `get` establishes. -/
structure InsertFacts (t : Table) (pre : List StringData) (c : StringData) (str : List Byte) :
    Prop where
  write : WriteFacts c str (Table.aligned_size str.length)
    (c.write str (str.length % ID_MOD) (Table.aligned_size str.length % ID_MOD))
  chunks : (insertAt t pre c str).m_chunks = pre ++
    [(c.write str (str.length % ID_MOD) (Table.aligned_size str.length % ID_MOD)).1]
  old_chunks : t.m_chunks = pre ++ [c] ∨ t.m_chunks ++ [c] = pre ++ [c]
  extend : ChunksExtend t.m_chunks (insertAt t pre c str).m_chunks
  ids : (insertAt t pre c str).m_id_to_str = t.m_id_to_str ++ [⟨pre.length, c.pos⟩]
  entry : EntryOk (insertAt t pre c str).m_chunks ⟨pre.length, c.pos⟩
  content : cstrAt (insertAt t pre c str).m_chunks ⟨pre.length, c.pos⟩ = c_string str
  inv : Inv (insertAt t pre c str)

/-- Identifier 0 designates the empty string. -/
def First (t : Table) : Prop :=
  ∃ p, t.m_id_to_str[0]? = some p ∧ cstrAt t.m_chunks p = []

/-- The byte string "hello". -/
def hello : List Byte := [104, 101, 108, 108, 111]

/-- The byte string "world". -/
def world : List Byte := [119, 111, 114, 108, 100]

/-- The byte string "missing". -/
def missing : List Byte := [109, 105, 115, 115, 105, 110, 103]

/-- A string of `n` bytes `a`. -/
def fill (n : Nat) : List Byte := List.replicate n 97

/-- The table of the concrete scenario: "", "hello" and "world". -/
def demo : Table := ((Table.new.get hello).1.get world).1

/-- Cursors and entry offsets are multiples of `sizeof(ID)`. -/
structure Aligned (t : Table) : Prop where
  pos : ∀ c ∈ t.m_chunks, c.pos % ID_SIZE = 0
  off : ∀ p ∈ t.m_id_to_str, p.off % ID_SIZE = 0

/-- The part of `Table::get(const char*, size_t)` that follows the early return on a hit
(source lines 91-129): the size computation and, under the exclusive lock, the checks,
`alloc_chunk`, `write` and the registration.  It does not look the string up again. -/
def Table.get_insert (t : Table) (str : List Byte) : Table × StringView :=
  let aligned := Table.aligned_size str.length
  if aligned > CHUNK_SIZE || aligned > ID_MAX || t.m_id_to_str.length == ID_MAX then
    (t, StringView.default)
  else
    let cast_str_size := str.length % ID_MOD
    let cast_aligned_size := aligned % ID_MOD
    let r := t.alloc_chunk cast_aligned_size
    let t1 := r.1
    let chunk_id := r.2
    match t1.m_chunks[chunk_id]? with
    | none => (t1, StringView.default)
    | some chunk =>
      if !chunk.has_space cast_aligned_size then (t1, StringView.default)
      else
        let w := chunk.write str cast_str_size cast_aligned_size
        let new_str : Ptr := { chunk := chunk_id, off := w.2 }
        let new_id := t1.m_id_to_str.length % ID_MOD
        let chunks := t1.m_chunks.set chunk_id w.1
        ({ m_chunks := chunks,
           m_id_to_str := t1.m_id_to_str ++ [new_str],
           m_str_to_id_map := mapEmplace chunks t1.m_str_to_id_map new_str new_id },
         { m_table := true, m_id := new_id })

/-- Where a thread that executes `get(str)` stands: before the lookup under the shared
lock; after a missed lookup, before the insertion under the exclusive lock; returned. -/
inductive GetThread where
  | start (str : List Byte)
  | missed (str : List Byte)
  | done (sv : StringView)
deriving DecidableEq

/-- One atomic step of a thread on the shared table: the lookup `find(str)` with the
early return on a hit, or the insertion that follows a miss. -/
def GetThread.step (t : Table) : GetThread → Table × GetThread
  | .start str => if (t.find str).toBool then (t, .done (t.find str)) else (t, .missed str)
  | .missed str => ((t.get_insert str).1, .done (t.get_insert str).2)
  | .done sv => (t, .done sv)

/-- Two threads that call `get` on one shared table. -/
structure Race where
  table : Table
  first : GetThread
  second : GetThread
deriving DecidableEq

/-- Run a schedule: `false` lets the first thread take its next atomic step, `true` the
second thread. -/
def Race.run : List Bool → Race → Race
  | [], r => r
  | false :: rest, r =>
    Race.run rest
      { table := (r.first.step r.table).1, first := (r.first.step r.table).2,
        second := r.second }
  | true :: rest, r =>
    Race.run rest
      { table := (r.second.step r.table).1, first := r.first,
        second := (r.second.step r.table).2 }

/-! ## Zero-terminated strings in byte lists -/

theorem c_string_nil : c_string [] = [] := rfl

theorem c_string_cons_zero (r : List Byte) : c_string (0 :: r) = [] := by
  simp [c_string]

theorem c_string_cons_ne {x : Byte} (hx : x ≠ 0) (r : List Byte) :
    c_string (x :: r) = x :: c_string r := by
  simp [c_string, List.takeWhile_cons, hx]

theorem c_string_append_of_mem {a : List Byte} (b : List Byte) (h : (0 : Byte) ∈ a) :
    c_string (a ++ b) = c_string a := by
  induction a with
  | nil => simp at h
  | cons x xs ih =>
    by_cases hx : x = 0
    · subst hx; rw [List.cons_append, c_string_cons_zero, c_string_cons_zero]
    · have hm : (0 : Byte) ∈ xs := by
        rcases List.mem_cons.mp h with h0 | h0
        · exact absurd h0.symm hx
        · exact h0
      rw [List.cons_append, c_string_cons_ne hx, c_string_cons_ne hx, ih hm]

theorem c_string_of_no_zero {s : List Byte} (h : ∀ b ∈ s, b ≠ 0) : c_string s = s := by
  induction s with
  | nil => rfl
  | cons x xs ih =>
    have hx : x ≠ 0 := h x (List.mem_cons_self _ _)
    rw [c_string_cons_ne hx, ih (fun b hb => h b (List.mem_cons_of_mem _ hb))]

theorem c_string_append_zero (s r : List Byte) : c_string (s ++ 0 :: r) = c_string s := by
  induction s with
  | nil => rw [List.nil_append, c_string_cons_zero, c_string_nil]
  | cons x xs ih =>
    by_cases hx : x = 0
    · subst hx; rw [List.cons_append, c_string_cons_zero, c_string_cons_zero]
    · rw [List.cons_append, c_string_cons_ne hx, c_string_cons_ne hx, ih]

theorem c_string_no_zero (s : List Byte) : ∀ b ∈ c_string s, b ≠ 0 := by
  intro b hb
  have := List.mem_takeWhile_imp hb
  simpa using this

theorem c_string_length_le (s : List Byte) : (c_string s).length ≤ s.length := by
  unfold c_string
  exact (List.takeWhile_sublist _).length_le

theorem TermAt.c_string_eq {d : List Byte} {n off : Nat} (h : TermAt d n off) :
    c_string (d.drop off) = c_string ((d.take n).drop off) := by
  have hd : d.drop off = (d.take n).drop off ++ (d.drop n).drop (off - (d.take n).length) := by
    conv_lhs => rw [← List.take_append_drop n d]
    rw [List.drop_append_eq_append_drop]
  rw [hd]
  exact c_string_append_of_mem _ h

theorem TermAt.mono {d e : List Byte} {n m off : Nat} (h : TermAt d n off)
    (hpre : e.take n = d.take n) (hnm : n ≤ m) : TermAt e m off := by
  unfold TermAt at h ⊢
  have h1 : (e.take m).take n = d.take n := by
    rw [List.take_take, Nat.min_eq_left hnm, hpre]
  have h2 : e.take m = d.take n ++ (e.take m).drop n := by
    conv_lhs => rw [← List.take_append_drop n (e.take m)]
    rw [h1]
  rw [h2, List.drop_append_eq_append_drop]
  exact List.mem_append_left _ h

theorem TermAt.c_string_congr {d e : List Byte} {n off : Nat} (h : TermAt d n off)
    (hpre : e.take n = d.take n) : c_string (e.drop off) = c_string (d.drop off) := by
  rw [h.c_string_eq, (h.mono hpre (Nat.le_refl n)).c_string_eq, hpre]

theorem TermAt.lt {d : List Byte} {n off : Nat} (h : TermAt d n off) : off < n := by
  unfold TermAt at h
  by_contra hc
  have hl : (d.take n).length ≤ off := by
    rw [List.length_take]; omega
  rw [List.drop_eq_nil_of_le hl] at h
  simp at h

/-- A terminated string ends before the bound. -/
theorem TermAt.length_lt {d : List Byte} {n off : Nat} (h : TermAt d n off) :
    off + (c_string (d.drop off)).length < n := by
  rw [h.c_string_eq]
  have hoff := h.lt
  unfold TermAt at h
  have hlen : ((d.take n).drop off).length ≤ n - off := by
    rw [List.length_drop, List.length_take]; omega
  have hlt : (c_string ((d.take n).drop off)).length < ((d.take n).drop off).length := by
    rcases Nat.lt_or_ge (c_string ((d.take n).drop off)).length
      ((d.take n).drop off).length with h1 | h1
    · exact h1
    · exfalso
      have hle := c_string_length_le ((d.take n).drop off)
      have heq : c_string ((d.take n).drop off) = (d.take n).drop off := by
        unfold c_string at h1 hle ⊢
        exact (List.takeWhile_sublist _).eq_of_length_le h1
      have := c_string_no_zero ((d.take n).drop off) 0 (by rw [heq]; exact h)
      exact this rfl
  omega

/-! ## Arithmetic of `aligned_size` and `has_space` -/

theorem Table.aligned_size_eq {n : Nat} (h : n + ID_SIZE < SIZE_MOD) :
    Table.aligned_size n = (n + 4) / 4 * 4 := by
  have hand : ∀ x : Nat, x &&& (ID_SIZE - 1) = x % 4 := by
    intro x
    have := Nat.and_pow_two_sub_one_eq_mod x 2
    simpa [ID_SIZE] using this
  have h1 : (n + 1) % SIZE_MOD = n + 1 :=
    Nat.mod_eq_of_lt (by unfold SIZE_MOD ID_SIZE at *; omega)
  unfold Table.aligned_size
  simp only [h1, hand]
  split
  · have h2 : n + 1 + (ID_SIZE - (n + 1) % 4) < SIZE_MOD := by
      unfold SIZE_MOD ID_SIZE at *; omega
    rw [Nat.mod_eq_of_lt h2]
    unfold ID_SIZE; omega
  · omega

theorem Table.aligned_size_bounds {n : Nat} (h : n + ID_SIZE < SIZE_MOD) :
    n + 1 ≤ Table.aligned_size n ∧ Table.aligned_size n ≤ n + 4 ∧
      Table.aligned_size n % 4 = 0 := by
  rw [Table.aligned_size_eq h]; omega

theorem detail.StringData.has_space_iff {c : StringData} (hpos : c.pos + ID_SIZE ≤ CHUNK_SIZE)
    (n : Nat) : c.has_space n = true ↔ c.pos + n + ID_SIZE ≤ CHUNK_SIZE := by
  unfold StringData.has_space
  unfold ID_SIZE CHUNK_SIZE at hpos
  simp only [decide_eq_true_eq]
  unfold SIZE_MOD ID_SIZE CHUNK_SIZE
  omega

/-! ## Chunks -/

theorem chunk_ok_new : ChunkOk StringData.new where
  len := List.length_replicate _ _
  pos_le := by show 0 + ID_SIZE ≤ CHUNK_SIZE; unfold ID_SIZE CHUNK_SIZE; omega
  zero := by
    intro b hb
    have hb2 : b ∈ List.replicate CHUNK_SIZE (0 : Byte) := List.mem_of_mem_drop hb
    exact (List.mem_replicate.mp hb2).2

theorem ChunkOk.space_iff {c : StringData} (h : ChunkOk c) (n : Nat) :
    c.has_space n = true ↔ c.pos + n + ID_SIZE ≤ CHUNK_SIZE :=
  StringData.has_space_iff h.pos_le n

theorem write_facts {c : StringData} (hc : ChunkOk c) (str : List Byte) (a : Nat)
    (hla : str.length < a) (hsp : c.pos + a + ID_SIZE ≤ CHUNK_SIZE) :
    WriteFacts c str a (c.write str (str.length % ID_MOD) (a % ID_MOD)) := by
  have hlen := hc.len
  have hl : str.length % ID_MOD = str.length :=
    Nat.mod_eq_of_lt (by unfold ID_MOD; unfold ID_SIZE CHUNK_SIZE at hsp; omega)
  have ha : a % ID_MOD = a :=
    Nat.mod_eq_of_lt (by unfold ID_MOD; unfold ID_SIZE CHUNK_SIZE at hsp; omega)
  have hp : (c.pos + a) % ID_MOD = c.pos + a :=
    Nat.mod_eq_of_lt (by unfold ID_MOD; unfold ID_SIZE CHUNK_SIZE at hsp; omega)
  have hdata : (c.write str (str.length % ID_MOD) (a % ID_MOD)).1.data
      = c.data.take c.pos ++ str ++ c.data.drop (c.pos + str.length) := by
    simp [StringData.write, hl]
  have hpos : (c.write str (str.length % ID_MOD) (a % ID_MOD)).1.pos = c.pos + a := by
    simp [StringData.write, ha, hp]
  have htl : (c.data.take c.pos).length = c.pos := by
    rw [List.length_take]; unfold ID_SIZE at hsp; omega
  have hrest : ∀ b ∈ c.data.drop (c.pos + str.length), b = 0 := by
    intro b hb
    rw [← List.drop_drop] at hb
    exact hc.zero b (List.mem_of_mem_drop hb)
  have hrest_ne : c.data.drop (c.pos + str.length) ≠ [] := by
    intro h0
    have := congrArg List.length h0
    rw [List.length_drop] at this
    simp only [List.length_nil] at this
    unfold ID_SIZE at hsp; omega
  obtain ⟨z, r, hzr⟩ := List.exists_cons_of_ne_nil hrest_ne
  have hz : z = 0 := hrest z (by rw [hzr]; exact List.mem_cons_self _ _)
  subst hz
  have hdrop : (c.write str (str.length % ID_MOD) (a % ID_MOD)).1.data.drop c.pos
      = str ++ 0 :: r := by
    rw [hdata, List.append_assoc, List.drop_append_eq_append_drop, htl, Nat.sub_self,
      List.drop_of_length_le (by rw [htl]), hzr]
    rfl
  have hdropL : (c.write str (str.length % ID_MOD) (a % ID_MOD)).1.data.drop
      (c.pos + str.length) = 0 :: r := by
    rw [← List.drop_drop, hdrop, List.drop_left]
  refine ⟨rfl, hpos, hdata, ⟨?_, ?_, ?_⟩, ?_, ?_, ?_, ?_, ?_⟩
  · rw [hdata]
    simp only [List.length_append, List.length_take, List.length_drop]
    unfold ID_SIZE at hsp; omega
  · rw [hpos]; unfold ID_SIZE at hsp ⊢; omega
  · intro b hb
    rw [hpos] at hb
    have h2 : c.pos + a = (c.pos + str.length) + (a - str.length) := by omega
    rw [h2, ← List.drop_drop, hdropL] at hb
    have h3 := List.mem_of_mem_drop hb
    rw [← hzr] at h3
    exact hrest b h3
  · rw [hdata, List.append_assoc, List.take_append_eq_append_take, htl, Nat.sub_self]
    simp
  · rw [hdrop]; simp
  · intro b hb
    rw [hdropL] at hb
    have h3 := List.mem_of_mem_take hb
    rw [← hzr] at h3
    exact hrest b h3
  · rw [hdrop, c_string_append_zero]
  · show (0 : Byte) ∈ List.drop c.pos (List.take _ _)
    rw [hpos, List.drop_take, hdrop]
    have h2 : c.pos + a - c.pos = str.length + (a - str.length - 1 + 1) := by omega
    rw [h2, List.take_append, List.take_succ_cons]
    exact List.mem_append_right _ (List.mem_cons_self _ _)

/-! ## The branches of `alloc_chunk` and `get` -/

theorem alloc_chunk_outcome (t : Table) (hlen : t.m_chunks.length ≤ ID_MOD) (n : Nat) :
    AllocOutcome t n (t.alloc_chunk n) := by
  unfold Table.alloc_chunk
  rcases List.eq_nil_or_concat t.m_chunks with hnil | ⟨pre, c, hpc⟩
  · have hl : t.m_chunks.length = 0 := by rw [hnil]; rfl
    have h0 : ¬ (0 > ID_MAX) := by unfold ID_MAX; omega
    have hfresh := @AllocOutcome.fresh t n
      (by intro back hb; rw [hnil] at hb; simp at hb) (by rw [hl]; exact Nat.zero_le _)
    simp only [hnil, List.getLast?_nil, List.length_nil, if_true, h0, if_false,
      Nat.zero_mod] at hfresh ⊢
    exact hfresh
  · rw [List.concat_eq_append] at hpc
    have hlast : t.m_chunks.getLast? = some c := by rw [hpc]; exact List.getLast?_concat _
    have hl : t.m_chunks.length = pre.length + 1 := by rw [hpc]; simp
    have hm1 : (t.m_chunks.length - 1) % ID_MOD = pre.length := by
      rw [hl, Nat.add_sub_cancel]; exact Nat.mod_eq_of_lt (by omega)
    simp only [hlast]
    cases hs : c.has_space n
    · simp only [Bool.not_false, if_true]
      by_cases hmax : t.m_chunks.length > ID_MAX
      · rw [if_pos hmax, hm1]
        exact AllocOutcome.full pre c hpc hs (by unfold ID_MAX at hmax; unfold ID_MOD at *; omega)
      · rw [if_neg hmax]
        have hm2 : t.m_chunks.length % ID_MOD = t.m_chunks.length :=
          Nat.mod_eq_of_lt (by unfold ID_MAX at hmax; unfold ID_MOD at *; omega)
        rw [hm2]
        exact AllocOutcome.fresh
          (by intro back hb; rw [hlast] at hb; cases hb; exact hs) (by omega)
    · simp only [Bool.not_true, Bool.false_eq_true, if_false]
      rw [hm1]
      exact AllocOutcome.reuse pre c hpc hs

theorem get_outcome (t : Table) (str : List Byte) (hchunks : t.m_chunks.length ≤ ID_MOD)
    (hids : t.m_id_to_str.length ≤ ID_MAX) : GetOutcome t str (t.get str) := by
  simp only [Table.get]
  cases hf : (t.find str).toBool
  · rw [if_neg (by simp)]
    by_cases hrej : (Table.aligned_size str.length > CHUNK_SIZE
        || Table.aligned_size str.length > ID_MAX || t.m_id_to_str.length == ID_MAX) = true
    · rw [if_pos hrej]
      refine GetOutcome.reject hf ?_
      simp only [Bool.or_eq_true, decide_eq_true_eq, beq_iff_eq] at hrej
      rcases hrej with (h | h) | h
      · exact Or.inl h
      · left; unfold ID_MAX at h; unfold CHUNK_SIZE; omega
      · exact Or.inr h
    · rw [if_neg hrej]
      simp only [Bool.or_eq_true, decide_eq_true_eq, beq_iff_eq, not_or, not_lt, gt_iff_lt]
        at hrej
      obtain ⟨⟨ha, _⟩, hne⟩ := hrej
      have hlt : t.m_id_to_str.length < ID_MAX := Nat.lt_of_le_of_ne hids hne
      have ham : Table.aligned_size str.length % ID_MOD = Table.aligned_size str.length :=
        Nat.mod_eq_of_lt (by unfold CHUNK_SIZE at ha; unfold ID_MOD; omega)
      have hidm : t.m_id_to_str.length % ID_MOD = t.m_id_to_str.length :=
        Nat.mod_eq_of_lt (by unfold ID_MAX at hlt; unfold ID_MOD; omega)
      have hao := alloc_chunk_outcome t hchunks (Table.aligned_size str.length)
      simp only [ham]
      generalize t.alloc_chunk (Table.aligned_size str.length) = r at hao
      cases hao with
      | reuse pre c hpc hs =>
        simp only [hpc, List.getElem?_concat_length, hs, Bool.not_true, Bool.false_eq_true,
          if_false, hidm]
        have hset : (pre ++ [c]).set pre.length
            (c.write str (str.length % ID_MOD) (Table.aligned_size str.length)).1
            = pre ++ [(c.write str (str.length % ID_MOD) (Table.aligned_size str.length)).1] := by
          simp
        rw [hset]
        have := @GetOutcome.insert t str pre c hf ha hlt (Or.inl hpc) hs
        simpa only [insertAt, ham, StringData.write] using this
      | full pre c hpc hs hfull =>
        simp only [hpc, List.getElem?_concat_length, hs, Bool.not_false, if_true]
        exact GetOutcome.full pre c hf ha hlt hpc hs hfull
      | fresh hlacks hmax =>
        simp only [List.getElem?_concat_length]
        cases hs : StringData.new.has_space (Table.aligned_size str.length)
        · simp only [Bool.not_false, if_true]
          exact GetOutcome.leak hf ha hlt hlacks hmax hs
        · simp only [Bool.not_true, Bool.false_eq_true, if_false, hidm]
          have hset : (t.m_chunks ++ [StringData.new]).set t.m_chunks.length
              (StringData.new.write str (str.length % ID_MOD)
                (Table.aligned_size str.length)).1
              = t.m_chunks ++ [(StringData.new.write str (str.length % ID_MOD)
                (Table.aligned_size str.length)).1] := by
            simp
          rw [hset]
          have := @GetOutcome.insert t str t.m_chunks StringData.new hf ha hlt
            (Or.inr ⟨rfl, rfl, hmax, hlacks⟩) hs
          simpa only [insertAt, ham, StringData.write] using this
  · rw [if_pos rfl]
    exact GetOutcome.hit hf

/-! ## Committed bytes are never rewritten -/

theorem ChunksExtend.refl (cs : List StringData) : ChunksExtend cs cs :=
  fun _ c0 h => ⟨c0, h, rfl, Nat.le_refl _⟩

theorem ChunksExtend.append (cs extra : List StringData) : ChunksExtend cs (cs ++ extra) := by
  intro i c0 h
  have hi : i < cs.length := (List.getElem?_eq_some_iff.mp h).1
  exact ⟨c0, by rw [List.getElem?_append_left hi]; exact h, rfl, Nat.le_refl _⟩

theorem ChunksExtend.write_last (pre : List StringData) {c : StringData} {str : List Byte}
    {a : Nat} {w : StringData × Nat} (hw : WriteFacts c str a w) :
    ChunksExtend (pre ++ [c]) (pre ++ [w.1]) := by
  intro i c0 h
  rcases Nat.lt_or_ge i pre.length with hi | hi
  · rw [List.getElem?_append_left hi] at h
    exact ⟨c0, by rw [List.getElem?_append_left hi]; exact h, rfl, Nat.le_refl _⟩
  · rw [List.getElem?_append_right hi] at h
    have hi0 : i - pre.length = 0 := by
      rcases Nat.eq_zero_or_pos (i - pre.length) with h0 | h0
      · exact h0
      · rw [List.getElem?_eq_none (by rw [List.length_singleton]; omega)] at h; cases h
    rw [hi0] at h
    have hc : c = c0 := by simpa using h
    subst hc
    refine ⟨w.1, ?_, hw.pre, by rw [hw.pos]; omega⟩
    rw [List.getElem?_append_right hi, hi0]; rfl

theorem EntryOk.extend {old new : List StringData} {p : Ptr} (h : EntryOk old p)
    (hext : ChunksExtend old new) : EntryOk new p ∧ cstrAt new p = cstrAt old p := by
  obtain ⟨c0, hc0, hterm⟩ := h
  obtain ⟨c1, hc1, hpre, hle⟩ := hext _ _ hc0
  refine ⟨⟨c1, hc1, hterm.mono hpre hle⟩, ?_⟩
  simp only [cstrAt, hc0, hc1]
  exact hterm.c_string_congr hpre

theorem mapFind_congr {old new : List StringData} {m : List (Ptr × Nat)}
    (h : ∀ e ∈ m, cstrAt new e.1 = cstrAt old e.1) (content : List Byte) :
    mapFind new m content = mapFind old m content := by
  unfold mapFind
  induction m with
  | nil => rfl
  | cons x xs ih =>
    have hx := h x (List.mem_cons_self _ _)
    have hxs := ih (fun e he => h e (List.mem_cons_of_mem _ he))
    simp only [List.find?_cons, hx, hxs]

theorem mapFind_some {chunks : List StringData} {m : List (Ptr × Nat)} {content : List Byte}
    {e : Ptr × Nat} (h : mapFind chunks m content = some e) :
    e ∈ m ∧ cstrAt chunks e.1 = content := by
  unfold mapFind at h
  exact ⟨List.mem_of_find?_eq_some h, by simpa using List.find?_some h⟩

theorem mapFind_none {chunks : List StringData} {m : List (Ptr × Nat)} {content : List Byte}
    (h : mapFind chunks m content = none) : ∀ e ∈ m, cstrAt chunks e.1 ≠ content := by
  unfold mapFind at h
  intro e he
  have := List.find?_eq_none.mp h e he
  simpa using this

theorem mapFind_isSome_of_mem {chunks : List StringData} {m : List (Ptr × Nat)}
    {e : Ptr × Nat} (he : e ∈ m) : ∃ e2, mapFind chunks m (cstrAt chunks e.1) = some e2 := by
  cases h : mapFind chunks m (cstrAt chunks e.1) with
  | some e2 => exact ⟨e2, rfl⟩
  | none => exact absurd rfl (mapFind_none h e he)

/-! ## The table invariant -/

theorem Inv.empty : Inv Table.empty where
  chunks_ok := by intro c hc; simp [Table.empty] at hc
  chunks_len := Nat.zero_le _
  ids_len := Nat.zero_le _
  entries := by intro p hp; simp [Table.empty] at hp
  map_ids := by intro e he; simp [Table.empty] at he
  map_cover := by intro p hp; simp [Table.empty] at hp

theorem Inv.key_mem {t : Table} (h : Inv t) {e : Ptr × Nat} (he : e ∈ t.m_str_to_id_map) :
    e.1 ∈ t.m_id_to_str :=
  List.getElem?_mem (h.map_ids e he)

theorem Inv.id_lt {t : Table} (h : Inv t) {e : Ptr × Nat} (he : e ∈ t.m_str_to_id_map) :
    e.2 < t.m_id_to_str.length :=
  (List.getElem?_eq_some_iff.mp (h.map_ids e he)).1

theorem mapEmplace_mem {chunks : List StringData} {m : List (Ptr × Nat)} {key : Ptr} {id : Nat}
    {e : Ptr × Nat} (he : e ∈ mapEmplace chunks m key id) : e ∈ m ∨ e = (key, id) := by
  unfold mapEmplace at he
  split at he
  · exact Or.inl he
  · rcases List.mem_append.mp he with h | h
    · exact Or.inl h
    · exact Or.inr (by simpa using h)

theorem mapEmplace_subset {chunks : List StringData} {m : List (Ptr × Nat)} {key : Ptr}
    {id : Nat} {e : Ptr × Nat} (he : e ∈ m) : e ∈ mapEmplace chunks m key id := by
  unfold mapEmplace
  split
  · exact he
  · exact List.mem_append_left _ he

theorem mapEmplace_covers (chunks : List StringData) (m : List (Ptr × Nat)) (key : Ptr)
    (id : Nat) : ∃ e ∈ mapEmplace chunks m key id, cstrAt chunks e.1 = cstrAt chunks key := by
  unfold mapEmplace
  split
  · next e2 h2 => exact ⟨e2, (mapFind_some h2).1, (mapFind_some h2).2⟩
  · exact ⟨(key, id), List.mem_append_right _ (List.mem_singleton_self _), rfl⟩

theorem Inv.transport {t : Table} (h : Inv t) {cs : List StringData}
    (hext : ChunksExtend t.m_chunks cs) (hok : ∀ c ∈ cs, ChunkOk c) (hlen : cs.length ≤ ID_MOD) :
    Inv { t with m_chunks := cs } where
  chunks_ok := hok
  chunks_len := hlen
  ids_len := h.ids_len
  entries := fun p hp => ((h.entries p hp).extend hext).1
  map_ids := h.map_ids
  map_cover := by
    intro p hp
    obtain ⟨e, he, hc⟩ := h.map_cover p hp
    refine ⟨e, he, ?_⟩
    show cstrAt cs e.1 = cstrAt cs p
    rw [((h.entries _ (h.key_mem he)).extend hext).2, ((h.entries p hp).extend hext).2, hc]

theorem insert_facts {t : Table} (h : Inv t) {str : List Byte} (haddr : Addressable str)
    {pre : List StringData} {c : StringData}
    (hcase : t.m_chunks = pre ++ [c] ∨
      (t.m_chunks = pre ∧ c = StringData.new ∧ t.m_chunks.length ≤ ID_MAX ∧
        ∀ back, t.m_chunks.getLast? = some back →
          back.has_space (Table.aligned_size str.length) = false))
    (hlt : t.m_id_to_str.length < ID_MAX)
    (hs : c.has_space (Table.aligned_size str.length) = true) : InsertFacts t pre c str := by
  have hcok : ChunkOk c := by
    rcases hcase with hpc | ⟨_, hnew, _, _⟩
    · exact h.chunks_ok c (by rw [hpc]; simp)
    · rw [hnew]; exact chunk_ok_new
  have hsp := (hcok.space_iff _).mp hs
  have hla : str.length < Table.aligned_size str.length := by
    have := (Table.aligned_size_bounds haddr).1; omega
  have hw := write_facts hcok str _ hla hsp
  have hext : ChunksExtend t.m_chunks (pre ++
      [(c.write str (str.length % ID_MOD) (Table.aligned_size str.length % ID_MOD)).1]) := by
    rcases hcase with hpc | ⟨hpre, _, _, _⟩
    · rw [hpc]; exact ChunksExtend.write_last pre hw
    · rw [hpre]; exact ChunksExtend.append pre _
  have hok : ∀ c2 ∈ pre ++
      [(c.write str (str.length % ID_MOD) (Table.aligned_size str.length % ID_MOD)).1],
      ChunkOk c2 := by
    intro c2 hc2
    rcases List.mem_append.mp hc2 with h1 | h1
    · refine h.chunks_ok c2 ?_
      rcases hcase with hpc | ⟨hpre, _, _, _⟩
      · rw [hpc]; exact List.mem_append_left _ h1
      · rw [hpre]; exact h1
    · rw [List.mem_singleton.mp h1]; exact hw.ok
  have hlen : (pre ++
      [(c.write str (str.length % ID_MOD) (Table.aligned_size str.length % ID_MOD)).1]).length
      ≤ ID_MOD := by
    rcases hcase with hpc | ⟨hpre, _, hmax, _⟩
    · have := h.chunks_len; rw [hpc] at this; simpa using this
    · rw [hpre] at hmax; unfold ID_MAX at hmax; unfold ID_MOD; simp; omega
  have h1 := h.transport hext hok hlen
  have hentry : EntryOk (pre ++
      [(c.write str (str.length % ID_MOD) (Table.aligned_size str.length % ID_MOD)).1])
      ⟨pre.length, c.pos⟩ :=
    ⟨_, List.getElem?_concat_length _ _, hw.term⟩
  have hcontent : cstrAt (pre ++
      [(c.write str (str.length % ID_MOD) (Table.aligned_size str.length % ID_MOD)).1])
      ⟨pre.length, c.pos⟩ = c_string str := by
    simp only [cstrAt, List.getElem?_concat_length]
    exact hw.cstr
  refine ⟨hw, rfl, ?_, hext, rfl, hentry, hcontent, ?_⟩
  · rcases hcase with hpc | ⟨hpre, _, _, _⟩
    · exact Or.inl hpc
    · exact Or.inr (by rw [hpre])
  · refine ⟨hok, hlen, ?_, ?_, ?_, ?_⟩
    · show (t.m_id_to_str ++ [_]).length ≤ ID_MAX
      simp only [List.length_append, List.length_singleton]; omega
    · intro p hp
      rcases List.mem_append.mp hp with hp1 | hp1
      · exact h1.entries p hp1
      · rw [List.mem_singleton.mp hp1]; exact hentry
    · intro e he
      show (t.m_id_to_str ++ [_])[e.2]? = some e.1
      rcases mapEmplace_mem he with he1 | he1
      · rw [List.getElem?_append_left (h.id_lt he1)]; exact h.map_ids e he1
      · rw [he1]; exact List.getElem?_concat_length _ _
    · intro p hp
      rcases List.mem_append.mp hp with hp1 | hp1
      · obtain ⟨e, he, hc⟩ := h1.map_cover p hp1
        exact ⟨e, mapEmplace_subset he, hc⟩
      · rw [List.mem_singleton.mp hp1]
        exact mapEmplace_covers _ _ _ _

theorem get_inv {t : Table} (h : Inv t) {str : List Byte} (haddr : Addressable str) :
    Inv (t.get str).1 := by
  have ho := get_outcome t str h.chunks_len h.ids_len
  generalize t.get str = r at ho
  cases ho with
  | hit _ => exact h
  | reject _ _ => exact h
  | full _ _ _ _ _ _ _ _ => exact h
  | leak _ _ _ _ hmax _ =>
    refine h.transport (ChunksExtend.append _ _) ?_ ?_
    · intro c hc
      rcases List.mem_append.mp hc with h1 | h1
      · exact h.chunks_ok c h1
      · rw [List.mem_singleton.mp h1]; exact chunk_ok_new
    · unfold ID_MAX at hmax; unfold ID_MOD; simp; omega
  | insert pre c _ _ hlt hcase hs => exact (insert_facts h haddr hcase hlt hs).inv

theorem inv_new : Inv Table.new := get_inv Inv.empty (by unfold Addressable SIZE_MOD ID_SIZE; simp)

theorem step_inv {t : Table} (h : Inv t) (c : Call) (haddr : Addressable c.arg) :
    Inv (t.step c).1 := by
  cases c with
  | get s => exact get_inv h haddr
  | find s => exact h

theorem Reachable.inv {t : Table} (h : Reachable t) : Inv t := by
  induction h with
  | init => exact inv_new
  | step c _ haddr ih => exact step_inv ih c haddr

/-! ## Frame properties of `get` -/

theorem get_extend {t : Table} (h : Inv t) {str : List Byte} (haddr : Addressable str) :
    ChunksExtend t.m_chunks (t.get str).1.m_chunks := by
  have ho := get_outcome t str h.chunks_len h.ids_len
  generalize t.get str = r at ho
  cases ho with
  | hit _ => exact ChunksExtend.refl _
  | reject _ _ => exact ChunksExtend.refl _
  | full _ _ _ _ _ _ _ _ => exact ChunksExtend.refl _
  | leak _ _ _ _ _ _ => exact ChunksExtend.append _ _
  | insert pre c _ _ hlt hcase hs => exact (insert_facts h haddr hcase hlt hs).extend

theorem get_ids (t : Table) (h : Inv t) (str : List Byte) :
    (t.get str).1.m_id_to_str = t.m_id_to_str ∨
      ∃ p, (t.get str).1.m_id_to_str = t.m_id_to_str ++ [p] ∧
        (t.get str).2 = { m_table := true, m_id := t.m_id_to_str.length } := by
  have ho := get_outcome t str h.chunks_len h.ids_len
  generalize t.get str = r at ho
  cases ho with
  | hit _ => exact Or.inl rfl
  | reject _ _ => exact Or.inl rfl
  | full _ _ _ _ _ _ _ _ => exact Or.inl rfl
  | leak _ _ _ _ _ _ => exact Or.inl rfl
  | insert pre c _ _ _ _ _ => exact Or.inr ⟨_, rfl, rfl⟩

theorem get_getElem?_ids {t : Table} (h : Inv t) (str : List Byte) {i : Nat}
    (hi : i < t.m_id_to_str.length) :
    (t.get str).1.m_id_to_str[i]? = t.m_id_to_str[i]? := by
  rcases get_ids t h str with h1 | ⟨p, h1, _⟩
  · rw [h1]
  · rw [h1, List.getElem?_append_left hi]

theorem getById_eq_some {t : Table} {i : Nat} {p : Ptr} (h : t.m_id_to_str[i]? = some p) :
    t.getById i = some p := by
  unfold Table.getById
  rw [if_pos (List.getElem?_eq_some_iff.mp h).1, h]

theorem getById_of_lt {t : Table} {i : Nat} (hi : i < t.m_id_to_str.length) :
    t.getById i = t.m_id_to_str[i]? := by
  unfold Table.getById
  rw [if_pos hi]

theorem First.pos {t : Table} (h : First t) : 0 < t.m_id_to_str.length := by
  obtain ⟨p, hp, _⟩ := h
  exact (List.getElem?_eq_some_iff.mp hp).1

theorem get_first {t : Table} (h : Inv t) (hf : First t) {str : List Byte}
    (haddr : Addressable str) : First (t.get str).1 := by
  obtain ⟨p, hp, hc⟩ := hf
  refine ⟨p, ?_, ?_⟩
  · rw [get_getElem?_ids h str (List.getElem?_eq_some_iff.mp hp).1]; exact hp
  · rw [((h.entries p (List.getElem?_mem hp)).extend (get_extend h haddr)).2]; exact hc

theorem first_new : First Table.new := ⟨⟨0, 0⟩, by decide, by decide⟩

theorem Reachable.first {t : Table} (h : Reachable t) : First t := by
  induction h with
  | init => exact first_new
  | step c hr haddr ih =>
    cases c with
    | get s => exact get_first hr.inv ih haddr
    | find s => exact ih

/-! ## Lookups -/

theorem find_of_some {t : Table} {str : List Byte} {e : Ptr × Nat}
    (h : mapFind t.m_chunks t.m_str_to_id_map (c_string str) = some e) :
    t.find str = { m_table := true, m_id := e.2 } := by
  unfold Table.find; rw [h]

theorem find_of_none {t : Table} {str : List Byte}
    (h : mapFind t.m_chunks t.m_str_to_id_map (c_string str) = none) :
    t.find str = StringView.default := by
  unfold Table.find; rw [h]

theorem find_valid {t : Table} {str : List Byte} (hv : (t.find str).toBool = true) :
    ∃ e, mapFind t.m_chunks t.m_str_to_id_map (c_string str) = some e ∧
      t.find str = { m_table := true, m_id := e.2 } ∧ e.2 ≠ 0 := by
  cases hm : mapFind t.m_chunks t.m_str_to_id_map (c_string str) with
  | none =>
    rw [find_of_none hm] at hv
    simp [StringView.toBool, StringView.default] at hv
  | some e =>
    refine ⟨e, rfl, find_of_some hm, ?_⟩
    rw [find_of_some hm] at hv
    simpa [StringView.toBool] using hv

theorem find_invalid {t : Table} {str : List Byte} (hv : (t.find str).toBool = false) :
    mapFind t.m_chunks t.m_str_to_id_map (c_string str) = none ∨
      ∃ e, mapFind t.m_chunks t.m_str_to_id_map (c_string str) = some e ∧ e.2 = 0 := by
  cases hm : mapFind t.m_chunks t.m_str_to_id_map (c_string str) with
  | none => exact Or.inl rfl
  | some e =>
    refine Or.inr ⟨e, rfl, ?_⟩
    rw [find_of_some hm] at hv
    simpa [StringView.toBool] using hv

theorem find_congr (t : Table) {s1 s2 : List Byte} (h : c_string s1 = c_string s2) :
    t.find s1 = t.find s2 := by
  unfold Table.find; rw [h]

theorem resolve_mk {t : Table} {i : Nat} {p : Ptr} (h : t.m_id_to_str[i]? = some p) :
    StringView.resolve { m_table := true, m_id := i } t = some (cstrAt t.m_chunks p) := by
  simp [StringView.resolve, StringView.c_str, getById_eq_some h]

theorem find_resolve {t : Table} (h : Inv t) {str : List Byte}
    (hv : (t.find str).toBool = true) : (t.find str).resolve t = some (c_string str) := by
  obtain ⟨e, hm, hf, _⟩ := find_valid hv
  rw [hf, resolve_mk (h.map_ids e (mapFind_some hm).1), (mapFind_some hm).2]

/-- In a state whose identifier 0 is the empty string, a lookup of a string with a
non-empty zero-terminated content never reports identifier 0. -/
theorem find_invalid_none {t : Table} (h : Inv t) (hf : First t) {str : List Byte}
    (hne : c_string str ≠ []) (hv : (t.find str).toBool = false) :
    mapFind t.m_chunks t.m_str_to_id_map (c_string str) = none := by
  rcases find_invalid hv with h0 | ⟨e, hm, he⟩
  · exact h0
  · exfalso
    obtain ⟨p, hp, hc⟩ := hf
    have h1 := h.map_ids e (mapFind_some hm).1
    rw [he, hp] at h1
    have h2 := (mapFind_some hm).2
    rw [← Option.some.inj h1, hc] at h2
    exact hne h2.symm

theorem get_resolve_aux {t : Table} (h : Inv t) {str : List Byte} (haddr : Addressable str)
    (hv : (t.get str).2.toBool = true) :
    (t.get str).2.resolve (t.get str).1 = some (c_string str) := by
  have ho := get_outcome t str h.chunks_len h.ids_len
  generalize t.get str = r at ho hv
  cases ho with
  | hit hhit => exact find_resolve h hhit
  | reject _ _ => simp [StringView.toBool, StringView.default] at hv
  | full _ _ _ _ _ _ _ _ => simp [StringView.toBool, StringView.default] at hv
  | leak _ _ _ _ _ _ => simp [StringView.toBool, StringView.default] at hv
  | insert pre c _ _ hlt hcase hs =>
    have hi := insert_facts h haddr hcase hlt hs
    have hidx : (insertAt t pre c str).m_id_to_str[t.m_id_to_str.length]?
        = some ⟨pre.length, c.pos⟩ := by
      rw [hi.ids]; exact List.getElem?_concat_length _ _
    show StringView.resolve _ (insertAt t pre c str) = _
    rw [resolve_mk hidx, hi.content]

/-- After a valid `get`, a lookup of the same content reports the returned handle. -/
theorem get_then_find {t : Table} (h : Inv t) (hf : First t) {str : List Byte}
    (haddr : Addressable str) (hne : c_string str ≠ [])
    (hv : (t.get str).2.toBool = true) : (t.get str).1.find str = (t.get str).2 := by
  have ho := get_outcome t str h.chunks_len h.ids_len
  generalize t.get str = r at ho hv
  cases ho with
  | hit hhit => rfl
  | reject _ _ => simp [StringView.toBool, StringView.default] at hv
  | full _ _ _ _ _ _ _ _ => simp [StringView.toBool, StringView.default] at hv
  | leak _ _ _ _ _ _ => simp [StringView.toBool, StringView.default] at hv
  | insert pre c hmiss _ hlt hcase hs =>
    have hi := insert_facts h haddr hcase hlt hs
    have hnone := find_invalid_none h hf hne hmiss
    have hkeys : ∀ e ∈ t.m_str_to_id_map,
        cstrAt (insertAt t pre c str).m_chunks e.1 = cstrAt t.m_chunks e.1 :=
      fun e he => ((h.entries _ (h.key_mem he)).extend hi.extend).2
    have hnone2 : mapFind (insertAt t pre c str).m_chunks t.m_str_to_id_map (c_string str)
        = none := by
      rw [mapFind_congr hkeys]; exact hnone
    have hmap : (insertAt t pre c str).m_str_to_id_map
        = t.m_str_to_id_map ++ [(⟨pre.length, c.pos⟩, t.m_id_to_str.length)] := by
      have hc := hi.content
      rw [hi.chunks] at hc hnone2
      show mapEmplace _ _ _ _ = _
      unfold mapEmplace
      rw [hc, hnone2]
    have hfind : mapFind (insertAt t pre c str).m_chunks (insertAt t pre c str).m_str_to_id_map
        (c_string str) = some (⟨pre.length, c.pos⟩, t.m_id_to_str.length) := by
      rw [hmap]
      have hnone3 := hnone2
      unfold mapFind at hnone3 ⊢
      rw [List.find?_append, hnone3]
      simp [hi.content]
    exact find_of_some hfind

theorem get_of_hit {t : Table} {str : List Byte} (hv : (t.find str).toBool = true) :
    t.get str = (t, t.find str) := by
  simp only [Table.get]
  rw [if_pos hv]

theorem get_dedup_aux {t : Table} (h : Inv t) (hf : First t) {s1 s2 : List Byte}
    (ha1 : Addressable s1)
    (hne1 : c_string s1 ≠ [])
    (hv1 : (t.get s1).2.toBool = true) (hv2 : ((t.get s1).1.get s2).2.toBool = true) :
    ((t.get s1).2.m_id = ((t.get s1).1.get s2).2.m_id ↔ c_string s1 = c_string s2) ∧
      (c_string s1 = c_string s2 → (t.get s1).1.get s2 = t.get s1) := by
  have h1 := get_inv h ha1
  have hfind := get_then_find h hf ha1 hne1 hv1
  have hsame : c_string s1 = c_string s2 → (t.get s1).1.get s2 = t.get s1 := by
    intro hc
    have hf2 : (t.get s1).1.find s2 = (t.get s1).2 := by
      rw [← find_congr _ hc]; exact hfind
    rw [get_of_hit (by rw [hf2]; exact hv1), hf2]
  refine ⟨⟨?_, fun hc => by rw [hsame hc]⟩, hsame⟩
  intro hid
  by_contra hc
  have hv1b : ((t.get s1).1.find s1).toBool = true := by rw [hfind]; exact hv1
  obtain ⟨e1, hm1, hf1, _⟩ := find_valid hv1b
  have hid1 : (t.get s1).2.m_id = e1.2 := by rw [← hfind, hf1]
  have ho := get_outcome (t.get s1).1 s2 h1.chunks_len h1.ids_len
  generalize (t.get s1).1.get s2 = r at ho hv2 hid
  cases ho with
  | hit hhit =>
    obtain ⟨e2, hm2, hf2, _⟩ := find_valid hhit
    have hid2 : e1.2 = e2.2 := by
      rw [← hid1, hid]
      show ((t.get s1).1.find s2).m_id = _
      rw [hf2]
    have hp1 := h1.map_ids e1 (mapFind_some hm1).1
    have hp2 := h1.map_ids e2 (mapFind_some hm2).1
    rw [hid2, hp2] at hp1
    have hp : e2.1 = e1.1 := Option.some.inj hp1
    have hc1 := (mapFind_some hm1).2
    have hc2 := (mapFind_some hm2).2
    rw [hp] at hc2
    exact hc (hc1.symm.trans hc2)
  | reject _ _ => simp [StringView.toBool, StringView.default] at hv2
  | full _ _ _ _ _ _ _ _ => simp [StringView.toBool, StringView.default] at hv2
  | leak _ _ _ _ _ _ => simp [StringView.toBool, StringView.default] at hv2
  | insert pre c _ _ _ _ _ =>
    have hlt := h1.id_lt (mapFind_some hm1).1
    rw [hid1] at hid
    simp only at hid
    omega

/-! ## Failure of `get` -/

/-- Every stored string is shorter than the usable part of a chunk. -/
theorem Inv.key_length_lt {t : Table} (h : Inv t) {p : Ptr} (hp : p ∈ t.m_id_to_str) :
    (cstrAt t.m_chunks p).length + ID_SIZE < CHUNK_SIZE := by
  obtain ⟨c, hc, hterm⟩ := h.entries p hp
  have hok := h.chunks_ok c (List.getElem?_mem hc)
  have hl := hterm.length_lt
  have hpos := hok.pos_le
  simp only [cstrAt, hc]
  omega

theorem find_default_of_long {t : Table} (h : Inv t) {s : List Byte} (hz : ∀ b ∈ s, b ≠ 0)
    (hlong : CHUNK_SIZE ≤ s.length + ID_SIZE) : t.find s = StringView.default := by
  cases hm : mapFind t.m_chunks t.m_str_to_id_map (c_string s) with
  | none => exact find_of_none hm
  | some e =>
    exfalso
    have h1 := h.key_length_lt (h.key_mem (mapFind_some hm).1)
    rw [(mapFind_some hm).2, c_string_of_no_zero hz] at h1
    omega

theorem toBool_default : StringView.default.toBool = false := rfl

theorem get_fails_iff_aux {t : Table} (h : Inv t) (hf : First t) {s : List Byte}
    (hmiss : (t.find s).toBool = false) :
    (t.get s).2.toBool = false ↔
      (CHUNK_SIZE - ID_SIZE < Table.aligned_size s.length ∨ t.m_id_to_str.length = ID_MAX ∨
        (t.m_chunks.length = ID_MOD ∧ ∀ back, t.m_chunks.getLast? = some back →
          back.has_space (Table.aligned_size s.length) = false)) := by
  have ho := get_outcome t s h.chunks_len h.ids_len
  generalize t.get s = r at ho
  cases ho with
  | hit hhit => rw [hmiss] at hhit; cases hhit
  | reject _ hrej =>
    refine ⟨fun _ => ?_, fun _ => toBool_default⟩
    rcases hrej with h1 | h1
    · left; omega
    · exact Or.inr (Or.inl h1)
  | full pre c _ _ _ hpc hs hfull =>
    refine ⟨fun _ => Or.inr (Or.inr ⟨hfull, ?_⟩), fun _ => toBool_default⟩
    intro back hb
    rw [hpc, List.getLast?_concat] at hb
    cases hb; exact hs
  | leak _ _ _ _ _ hnew =>
    refine ⟨fun _ => Or.inl ?_, fun _ => toBool_default⟩
    have := (chunk_ok_new.space_iff (Table.aligned_size s.length)).not.mp (by rw [hnew]; simp)
    have hp : StringData.new.pos = 0 := rfl
    rw [hp] at this
    unfold ID_SIZE CHUNK_SIZE at this ⊢
    omega
  | insert pre c _ _ hlt hcase hs =>
    have hpos := hf.pos
    have hv : StringView.toBool { m_table := true, m_id := t.m_id_to_str.length } = true := by
      simp only [StringView.toBool, decide_eq_true_eq]; omega
    refine ⟨fun hc => ?_, fun hc => ?_⟩
    · rw [hv] at hc; cases hc
    · exfalso
      have hcok : ChunkOk c := by
        rcases hcase with hpc | ⟨_, hnew, _, _⟩
        · exact h.chunks_ok c (by rw [hpc]; simp)
        · rw [hnew]; exact chunk_ok_new
      have hsp := (hcok.space_iff _).mp hs
      rcases hc with h1 | h1 | ⟨h1, h2⟩
      · unfold ID_SIZE CHUNK_SIZE at hsp h1; omega
      · omega
      · rcases hcase with hpc | ⟨_, _, hmax, _⟩
        · have := h2 c (by rw [hpc]; exact List.getLast?_concat _)
          rw [hs] at this; cases this
        · unfold ID_MAX at hmax; unfold ID_MOD at h1; omega

/-- A string whose aligned size fits a chunk but not its usable part makes `get` append
a fresh chunk and then give up. -/
theorem get_leak_aux {t : Table} (h : Inv t) {s : List Byte}
    (hmiss : (t.find s).toBool = false)
    (hbig : CHUNK_SIZE - ID_SIZE < Table.aligned_size s.length)
    (hfit : Table.aligned_size s.length ≤ CHUNK_SIZE)
    (hids : t.m_id_to_str.length < ID_MAX) (hchunks : t.m_chunks.length ≤ ID_MAX) :
    t.get s = ({ t with m_chunks := t.m_chunks ++ [StringData.new] }, StringView.default) := by
  have ho := get_outcome t s h.chunks_len h.ids_len
  generalize t.get s = r at ho
  cases ho with
  | hit hhit => rw [hmiss] at hhit; cases hhit
  | reject _ hrej =>
    exfalso
    rcases hrej with h1 | h1
    · omega
    · omega
  | full pre c _ _ _ hpc hs hfull =>
    exfalso; unfold ID_MAX at hchunks; unfold ID_MOD at hfull; omega
  | leak _ _ _ _ _ hnew => rfl
  | insert pre c _ _ hlt hcase hs =>
    exfalso
    have hcok : ChunkOk c := by
      rcases hcase with hpc | ⟨_, hnew, _, _⟩
      · exact h.chunks_ok c (by rw [hpc]; simp)
      · rw [hnew]; exact chunk_ok_new
    have hsp := (hcok.space_iff _).mp hs
    unfold ID_SIZE CHUNK_SIZE at hsp hbig; omega

/-- A string whose zero-terminated content no entry has is not found. -/
theorem find_default_of_absent_aux {t : Table} (h : Inv t) {s : List Byte}
    (hno : ∀ i, i < t.m_id_to_str.length → t.resolveId i ≠ some (c_string s)) :
    t.find s = StringView.default := by
  cases hm : mapFind t.m_chunks t.m_str_to_id_map (c_string s) with
  | none => exact find_of_none hm
  | some e =>
    exfalso
    have hmem := (mapFind_some hm).1
    have hidx := h.map_ids e hmem
    refine hno e.2 (h.id_lt hmem) ?_
    unfold Table.resolveId
    rw [getById_eq_some hidx]
    simp only [Option.map_some']
    rw [(mapFind_some hm).2]

/-! ## The claims -/

/-- C1, as stated, fails: after `get("a")`, the call `get` of the three bytes `a\0b`
(a `std::string` with an embedded zero byte, passed with its explicit length 3) returns
a valid handle, but the handle resolves to the zero-terminated string `a`; even the three
raw bytes at the returned pointer are `a\0\0`, not `a\0b`. -/
theorem round_trip_fails_on_embedded_zero :
    Reachable (Table.new.get [97]).1 ∧
    ((Table.new.get [97]).1.get [97, 0, 98]).2.toBool = true ∧
    ((Table.new.get [97]).1.get [97, 0, 98]).2.resolve
        ((Table.new.get [97]).1.get [97, 0, 98]).1 = some [97] ∧
    ((Table.new.get [97]).1.get [97, 0, 98]).2.resolve
        ((Table.new.get [97]).1.get [97, 0, 98]).1 ≠ some [97, 0, 98] ∧
    (((Table.new.get [97]).1.get [97, 0, 98]).2.c_str
        ((Table.new.get [97]).1.get [97, 0, 98]).1).map
      (fun p => bytesAt ((Table.new.get [97]).1.get [97, 0, 98]).1.m_chunks p 3)
        = some [97, 0, 0] :=
  ⟨Reachable.step (Call.get [97]) Reachable.init (by unfold Addressable; decide),
    by decide, by decide, by decide, by decide⟩

/-- C1, amended: in every reachable table state, for every byte string `s` handed to
`get` with its length, if `get(s)` returns a valid handle then resolving that handle in
the resulting table yields the bytes of `s` before its first zero byte; when `s` contains
no zero byte this is `s` itself. -/
theorem get_round_trip (t : Table) (h : Reachable t) (s : List Byte) (haddr : Addressable s)
    (hv : (t.get s).2.toBool = true) :
    (t.get s).2.resolve (t.get s).1 = some (c_string s) ∧
      ((∀ b ∈ s, b ≠ 0) → (t.get s).2.resolve (t.get s).1 = some s) := by
  have h1 := get_resolve_aux h.inv haddr hv
  refine ⟨h1, fun hz => ?_⟩
  rw [h1, c_string_of_no_zero hz]

/-- C1 at a concrete input: `get("hello")` on a fresh table resolves to "hello". -/
theorem get_round_trip_witness :
    Reachable Table.new ∧ Addressable hello ∧ (Table.new.get hello).2.toBool = true ∧
    (Table.new.get hello).2.resolve (Table.new.get hello).1 = some (c_string hello) ∧
      ((∀ b ∈ hello, b ≠ 0) →
        (Table.new.get hello).2.resolve (Table.new.get hello).1 = some hello) :=
  ⟨Reachable.init, by unfold Addressable; decide, by decide,
    get_round_trip Table.new Reachable.init hello (by unfold Addressable; decide) (by decide)⟩

/-- C2, as stated, fails: `get("a")` followed by `get` of the three bytes `a\0b` returns
two valid handles with the same identifier although the two non-empty byte strings
differ. -/
theorem dedup_fails_on_embedded_zero :
    Reachable Table.new ∧ ([97] : List Byte) ≠ [] ∧ ([97, 0, 98] : List Byte) ≠ [] ∧
    (Table.new.get [97]).2.toBool = true ∧
    ((Table.new.get [97]).1.get [97, 0, 98]).2.toBool = true ∧
    (Table.new.get [97]).2.m_id = ((Table.new.get [97]).1.get [97, 0, 98]).2.m_id ∧
    ([97] : List Byte) ≠ [97, 0, 98] :=
  ⟨Reachable.init, by decide, by decide, by decide, by decide, by decide, by decide⟩

/-- C2, amended: in every reachable table state, when `get(s1)` and then `get(s2)` are
called on the same table and both return valid handles, where the bytes of `s1` before
its first zero byte are non-empty, the two identifiers are equal if and only if `s1` and
`s2` agree on the bytes before their first zero byte; when they agree the second call
returns the handle of the first and leaves the table as the first call left it.  For
strings without a zero byte: the identifiers are equal if and only if `s1 = s2`. -/
theorem get_dedup (t : Table) (h : Reachable t) (s1 s2 : List Byte) (ha1 : Addressable s1)
    (hne1 : c_string s1 ≠ [])
    (hv1 : (t.get s1).2.toBool = true) (hv2 : ((t.get s1).1.get s2).2.toBool = true) :
    ((t.get s1).2.m_id = ((t.get s1).1.get s2).2.m_id ↔ c_string s1 = c_string s2) ∧
      (c_string s1 = c_string s2 → (t.get s1).1.get s2 = t.get s1) ∧
      ((∀ b ∈ s1, b ≠ 0) → (∀ b ∈ s2, b ≠ 0) →
        ((t.get s1).2.m_id = ((t.get s1).1.get s2).2.m_id ↔ s1 = s2)) := by
  have haux := get_dedup_aux h.inv h.first ha1 hne1 hv1 hv2
  refine ⟨haux.1, haux.2, fun hz1 hz2 => ?_⟩
  have := haux.1
  rw [c_string_of_no_zero hz1, c_string_of_no_zero hz2] at this
  exact this

/-- C2 at a concrete input: `get("hello")` then `get("world")` on a fresh table. -/
theorem get_dedup_witness :
    Reachable Table.new ∧ Addressable hello ∧ c_string hello ≠ [] ∧
    (Table.new.get hello).2.toBool = true ∧
    ((Table.new.get hello).1.get world).2.toBool = true ∧
    (((Table.new.get hello).2.m_id = ((Table.new.get hello).1.get world).2.m_id ↔
        c_string hello = c_string world) ∧
      (c_string hello = c_string world →
        (Table.new.get hello).1.get world = Table.new.get hello) ∧
      ((∀ b ∈ hello, b ≠ 0) → (∀ b ∈ world, b ≠ 0) →
        ((Table.new.get hello).2.m_id = ((Table.new.get hello).1.get world).2.m_id ↔
          hello = world))) :=
  ⟨Reachable.init, by unfold Addressable; decide, by decide, by decide, by decide,
    get_dedup Table.new Reachable.init hello world (by unfold Addressable; decide)
      (by decide) (by decide) (by decide)⟩

/-- C3, the code at the failing input: on a freshly constructed table `find("")` reports
identifier 0 and there is one entry, but `get("")` returns a handle carrying identifier 1
and leaves two entries: the handle for identifier 0 converts to `false`, so `get` takes
its insertion path. -/
theorem get_empty_string_inserts_again :
    (Table.new.find []).m_id = 0 ∧ (Table.new.find []).toBool = false ∧
    Table.new.m_id_to_str.length = 1 ∧
    (Table.new.get []).2.m_id = 1 ∧ (Table.new.get []).1.m_id_to_str.length = 2 ∧
    ((Table.new.get []).1.get []).2.m_id = 2 := by
  decide

/-- C4: in every reachable table state, a `get(s)` call that changes the id -> pointer
sequence returns a handle whose identifier is the number of entries held before the call,
appends exactly one entry and keeps the earlier ones in place; a valid handle always
carries an identifier below the number of entries.  On a fresh table `get("hello")`
carries id 1, a second `get("hello")` id 1 again and `get("world")` then id 2. -/
theorem get_dense_ids (t : Table) (h : Reachable t) (s : List Byte)
    (hins : (t.get s).1.m_id_to_str ≠ t.m_id_to_str) :
    (t.get s).2.m_id = t.m_id_to_str.length ∧
    (t.get s).1.m_id_to_str.length = t.m_id_to_str.length + 1 ∧
    (t.get s).1.m_id_to_str.take t.m_id_to_str.length = t.m_id_to_str ∧
    (t.get s).2.m_id < (t.get s).1.m_id_to_str.length ∧
    ((Table.new.get hello).2.m_id = 1 ∧
      ((Table.new.get hello).1.get hello).2.m_id = 1 ∧
      (((Table.new.get hello).1.get hello).1.get world).2.m_id = 2) := by
  rcases get_ids t h.inv s with h1 | ⟨p, h1, h2⟩
  · exact absurd h1 hins
  · rw [h1, h2]
    refine ⟨rfl, by simp, by simp, by simp, by decide⟩

/-- C4 at a concrete input: `get("hello")` on a fresh table inserts entry 1. -/
theorem get_dense_ids_witness :
    Reachable Table.new ∧ (Table.new.get hello).1.m_id_to_str ≠ Table.new.m_id_to_str ∧
    ((Table.new.get hello).2.m_id = Table.new.m_id_to_str.length ∧
    (Table.new.get hello).1.m_id_to_str.length = Table.new.m_id_to_str.length + 1 ∧
    (Table.new.get hello).1.m_id_to_str.take Table.new.m_id_to_str.length
      = Table.new.m_id_to_str ∧
    (Table.new.get hello).2.m_id < (Table.new.get hello).1.m_id_to_str.length ∧
    ((Table.new.get hello).2.m_id = 1 ∧
      ((Table.new.get hello).1.get hello).2.m_id = 1 ∧
      (((Table.new.get hello).1.get hello).1.get world).2.m_id = 2)) :=
  ⟨Reachable.init, by decide, get_dense_ids Table.new Reachable.init hello (by decide)⟩

/-- C5: in every reachable table state, for every identifier `i` in range before a call
`get(s)`, whatever branch the call takes, `Table::get(i)` returns the same pointer after
the call as before it and the zero-terminated bytes at that pointer are the same. -/
theorem get_preserves_entries (t : Table) (h : Reachable t) (s : List Byte)
    (haddr : Addressable s) (i : Nat) (hi : i < t.m_id_to_str.length) :
    (t.get s).1.getById i = t.getById i ∧ (t.get s).1.resolveId i = t.resolveId i ∧
      t.resolveId i ≠ none := by
  have hinv := h.inv
  have hi2 : i < (t.get s).1.m_id_to_str.length := by
    rcases get_ids t hinv s with h1 | ⟨p, h1, _⟩
    · rw [h1]; exact hi
    · rw [h1]; simp; omega
  have hptr : (t.get s).1.getById i = t.getById i := by
    rw [getById_of_lt hi, getById_of_lt hi2, get_getElem?_ids hinv s hi]
  obtain ⟨p, hp⟩ : ∃ p, t.m_id_to_str[i]? = some p :=
    ⟨_, List.getElem?_eq_getElem hi⟩
  have hc := ((hinv.entries p (List.getElem?_mem hp)).extend (get_extend hinv haddr)).2
  refine ⟨hptr, ?_, ?_⟩
  · unfold Table.resolveId
    rw [hptr, getById_of_lt hi, hp]
    simp only [Option.map_some']
    rw [hc]
  · unfold Table.resolveId
    rw [getById_of_lt hi, hp]
    simp

/-- C5 at a concrete input: entry 1 ("hello") across `get("world")`. -/
theorem get_preserves_entries_witness :
    Reachable (Table.new.get hello).1 ∧ Addressable world ∧
    1 < (Table.new.get hello).1.m_id_to_str.length ∧
    (((Table.new.get hello).1.get world).1.getById 1 = (Table.new.get hello).1.getById 1 ∧
      ((Table.new.get hello).1.get world).1.resolveId 1
        = (Table.new.get hello).1.resolveId 1 ∧
      (Table.new.get hello).1.resolveId 1 ≠ none) :=
  ⟨Reachable.step (Call.get hello) Reachable.init (by unfold Addressable; decide),
    by unfold Addressable; decide, by decide,
    get_preserves_entries _
      (Reachable.step (Call.get hello) Reachable.init (by unfold Addressable; decide))
      world (by unfold Addressable; decide) 1 (by decide)⟩

theorem fill_length (n : Nat) : (fill n).length = n := List.length_replicate _ _

theorem fill_no_zero (n : Nat) : ∀ b ∈ fill n, b ≠ 0 := by
  intro b hb
  rw [(List.mem_replicate.mp hb).2]
  decide

theorem new_find_fill_4093 : (Table.new.find (fill 4093)).toBool = false := by
  rw [find_default_of_long inv_new (fill_no_zero _)
    (by rw [fill_length]; unfold CHUNK_SIZE ID_SIZE; omega)]
  rfl

theorem aligned_size_4093 : Table.aligned_size (fill 4093).length = 4096 := by
  rw [fill_length]; decide

theorem new_absent_fill_4093 :
    ∀ i, i < Table.new.m_id_to_str.length → Table.new.resolveId i ≠ some (fill 4093) := by
  intro i hi
  have hlen : Table.new.m_id_to_str.length = 1 := by decide
  have hi0 : i = 0 := by omega
  subst hi0
  have h0 : Table.new.resolveId 0 = some [] := by decide
  rw [h0]
  intro hc
  have := congrArg List.length (Option.some.inj hc)
  rw [fill_length] at this
  cases this

theorem after_a_absent_long :
    ∀ i, i < (Table.new.get [97]).1.m_id_to_str.length →
      (Table.new.get [97]).1.resolveId i ≠ some (97 :: 0 :: fill 4100) := by
  intro i hi
  have hlen : (Table.new.get [97]).1.m_id_to_str.length = 2 := by decide
  have h0 : (Table.new.get [97]).1.resolveId 0 = some [] := by decide
  have h1 : (Table.new.get [97]).1.resolveId 1 = some [97] := by decide
  have hi01 : i = 0 ∨ i = 1 := by omega
  rcases hi01 with hi0 | hi1
  · subst hi0; rw [h0]; intro hc; cases hc
  · subst hi1; rw [h1]; intro hc; cases hc

/-- C6, as stated, fails, at two inputs.  On a freshly constructed table the string of
4093 bytes `a` is not present, its aligned size 4096 exceeds neither `CHUNK_SIZE` nor the
identifier maximum, the table holds one entry, and yet `get` returns an invalid handle.
And after `get("a")` the byte string `a\0` followed by 4100 bytes `a` is the content of no
entry and has aligned size 4104 > `CHUNK_SIZE`, yet `get` returns a valid handle: the
lookup compares the bytes before the first zero byte. -/
theorem get_fails_below_chunk_size :
    (Reachable Table.new ∧ Addressable (fill 4093) ∧
      (∀ i, i < Table.new.m_id_to_str.length → Table.new.resolveId i ≠ some (fill 4093)) ∧
      Table.new.find (fill 4093) = StringView.default ∧
      (Table.new.get (fill 4093)).2.toBool = false ∧
      ¬ (CHUNK_SIZE < Table.aligned_size (fill 4093).length ∨
          ID_MAX < Table.aligned_size (fill 4093).length ∨
          Table.new.m_id_to_str.length = ID_MAX)) ∧
    (Reachable (Table.new.get [97]).1 ∧
      (∀ i, i < (Table.new.get [97]).1.m_id_to_str.length →
        (Table.new.get [97]).1.resolveId i ≠ some (97 :: 0 :: fill 4100)) ∧
      CHUNK_SIZE < Table.aligned_size (97 :: 0 :: fill 4100).length ∧
      ((Table.new.get [97]).1.get (97 :: 0 :: fill 4100)).2.toBool = true) := by
  refine ⟨⟨Reachable.init, ?_, new_absent_fill_4093, ?_, ?_, ?_⟩,
    ⟨Reachable.step (Call.get [97]) Reachable.init (by unfold Addressable; decide),
      after_a_absent_long, ?_, by decide⟩⟩
  · unfold Addressable; rw [fill_length]; decide
  · exact find_default_of_long inv_new (fill_no_zero _)
      (by rw [fill_length]; unfold CHUNK_SIZE ID_SIZE; omega)
  · refine (get_fails_iff_aux inv_new first_new new_find_fill_4093).mpr (Or.inl ?_)
    rw [aligned_size_4093]; decide
  · rw [aligned_size_4093]; decide
  · rw [List.length_cons, List.length_cons, fill_length]
    decide

/-- C6, amended: in every reachable table state, for every byte string `s` not already
present in the table (no entry's content equals the bytes of `s` before its first zero
byte; for `s` without a zero byte: no entry has content `s`), `get(s)` returns an invalid
handle if and only if the aligned storage size of `s` exceeds `CHUNK_SIZE - sizeof(ID)`
= 4092, or the table already holds 2^32 - 1 entries, or the chunk vector already holds
2^32 chunks and its last chunk has no room for `s`. -/
theorem get_fails_iff (t : Table) (h : Reachable t) (s : List Byte)
    (habs : ∀ i, i < t.m_id_to_str.length → t.resolveId i ≠ some (c_string s)) :
    (t.get s).2.toBool = false ↔
      (CHUNK_SIZE - ID_SIZE < Table.aligned_size s.length ∨ t.m_id_to_str.length = ID_MAX ∨
        (t.m_chunks.length = ID_MOD ∧ ∀ back, t.m_chunks.getLast? = some back →
          back.has_space (Table.aligned_size s.length) = false)) :=
  get_fails_iff_aux h.inv h.first
    (by rw [find_default_of_absent_aux h.inv habs]; rfl)

/-- C6 at a concrete input: `get("hello")` on a fresh table, where "hello" is absent. -/
theorem get_fails_iff_witness :
    Reachable Table.new ∧
    (∀ i, i < Table.new.m_id_to_str.length →
      Table.new.resolveId i ≠ some (c_string hello)) ∧
    (Table.new.get hello).2.toBool = true ∧
    ((Table.new.get hello).2.toBool = false ↔
      (CHUNK_SIZE - ID_SIZE < Table.aligned_size hello.length ∨
        Table.new.m_id_to_str.length = ID_MAX ∨
        (Table.new.m_chunks.length = ID_MOD ∧ ∀ back, Table.new.m_chunks.getLast? = some back →
          back.has_space (Table.aligned_size hello.length) = false))) :=
  ⟨Reachable.init, by decide, by decide,
    get_fails_iff Table.new Reachable.init hello (by decide)⟩

/-- C7, the code at the failing input: on a freshly constructed table `get` of the string
of 4093 bytes `a` (aligned size 4096) returns the invalid default handle, but the chunk
vector has grown from one chunk to two: `alloc_chunk` appended a fresh chunk before the
`has_space` check on it failed.  The id -> pointer sequence and the content map are
unchanged. -/
theorem get_failure_leaves_new_chunk :
    (Table.new.get (fill 4093)).2 = StringView.default ∧
    Table.new.m_chunks.length = 1 ∧
    (Table.new.get (fill 4093)).1.m_chunks = Table.new.m_chunks ++ [StringData.new] ∧
    (Table.new.get (fill 4093)).1.m_chunks.length = 2 ∧
    (Table.new.get (fill 4093)).1 ≠ Table.new ∧
    (Table.new.get (fill 4093)).1.m_id_to_str = Table.new.m_id_to_str ∧
    (Table.new.get (fill 4093)).1.m_str_to_id_map = Table.new.m_str_to_id_map := by
  have hget := get_leak_aux inv_new new_find_fill_4093
    (by rw [aligned_size_4093]; decide) (by rw [aligned_size_4093]; decide)
    (by decide) (by decide)
  have hlen : Table.new.m_chunks.length = 1 := by decide
  rw [hget]
  refine ⟨rfl, hlen, rfl, ?_, ?_, rfl, rfl⟩
  · simp [hlen]
  · intro hc
    have := congrArg (fun t => t.m_chunks.length) hc
    simp [hlen] at this

theorem demo_reachable : Reachable demo :=
  Reachable.step (Call.get world)
    (Reachable.step (Call.get hello) Reachable.init (by unfold Addressable; decide))
    (by unfold Addressable; decide)

/-- C9, as stated, fails: on the table holding "", "hello" and "world" no entry has the
seven bytes `hello\0x` as content, yet `find` of that byte string (a `std::string` with
an embedded zero byte) returns a valid handle, the one of "hello". -/
theorem find_hits_on_embedded_zero :
    Reachable demo ∧ demo.m_id_to_str.length = 3 ∧
    (∀ i, i < 3 → demo.resolveId i ≠ some (hello ++ [0, 120])) ∧
    (demo.find (hello ++ [0, 120])).toBool = true ∧
    demo.find (hello ++ [0, 120]) ≠ StringView.default :=
  ⟨demo_reachable, by decide, by decide, by decide, by decide⟩

/-- C9, amended: in every reachable table state `find(s)` hands the table back unchanged
(chunks, id -> pointer sequence and content map), and when no entry's content equals the
bytes of `s` before its first zero byte (for `s` without a zero byte: equals `s`) it
returns the invalid default handle. -/
theorem find_read_only (t : Table) (h : Reachable t) (s : List Byte) :
    (t.step (Call.find s)).1 = t ∧
    ((∀ i, i < t.m_id_to_str.length → t.resolveId i ≠ some (c_string s)) →
      (t.step (Call.find s)).2 = StringView.default) ∧
    ((∀ b ∈ s, b ≠ 0) → (∀ i, i < t.m_id_to_str.length → t.resolveId i ≠ some s) →
      (t.step (Call.find s)).2 = StringView.default) := by
  have key : (∀ i, i < t.m_id_to_str.length → t.resolveId i ≠ some (c_string s)) →
      t.find s = StringView.default := by
    intro hno
    cases hm : mapFind t.m_chunks t.m_str_to_id_map (c_string s) with
    | none => exact find_of_none hm
    | some e =>
      exfalso
      have hmem := (mapFind_some hm).1
      have hidx := h.inv.map_ids e hmem
      refine hno e.2 (h.inv.id_lt hmem) ?_
      unfold Table.resolveId
      rw [getById_eq_some hidx]
      simp only [Option.map_some']
      rw [(mapFind_some hm).2]
  refine ⟨rfl, key, fun hz hno => key ?_⟩
  rw [c_string_of_no_zero hz]
  exact hno

/-- C9 at a concrete input: `find("missing")` on the table holding "", "hello" and
"world" is invalid. -/
theorem find_read_only_witness :
    Reachable demo ∧
    ((demo.step (Call.find missing)).1 = demo ∧
    ((∀ i, i < demo.m_id_to_str.length → demo.resolveId i ≠ some (c_string missing)) →
      (demo.step (Call.find missing)).2 = StringView.default) ∧
    ((∀ b ∈ missing, b ≠ 0) →
      (∀ i, i < demo.m_id_to_str.length → demo.resolveId i ≠ some missing) →
      (demo.step (Call.find missing)).2 = StringView.default)) ∧
    (demo.step (Call.find missing)).2.toBool = false :=
  ⟨demo_reachable, find_read_only demo demo_reachable missing, by decide⟩

/-- C10, as stated, fails: immediately after construction the handle `find("")` returns
converts to `false` (`operator bool` is `m_id != 0`). -/
theorem find_empty_is_not_truthy : (Table.new.find []).toBool = false := by
  decide

/-- C10, amended: immediately after construction `find("")` returns the handle that
points to the table and carries identifier 0, distinct from the default handle; that
handle resolves to the empty string, and it converts to `false`, as the handle of the
empty string is documented to. -/
theorem find_empty_after_construction :
    Table.new.find [] = { m_table := true, m_id := 0 } ∧
    (Table.new.find []).m_id = 0 ∧
    (Table.new.find []).eq StringView.default = false ∧
    (Table.new.find []).resolve Table.new = some [] ∧
    (Table.new.find []).toBool = false := by
  decide

/-- C11: in every reachable table state and for every identifier `id`, `Table::get(id)`
returns the pointer stored at index `id` of the id -> pointer sequence when `id` is below
the number of entries (that pointer designates a terminated string in committed chunk
memory), and `nullptr` otherwise; the default-constructed handle resolves to `nullptr`
through `StringView::c_str` whatever the table. -/
theorem resolve_by_id (t : Table) (h : Reachable t) (id : Nat) :
    (id < t.m_id_to_str.length →
      ∃ p, t.m_id_to_str[id]? = some p ∧ t.getById id = some p ∧ EntryOk t.m_chunks p ∧
        t.resolveId id = some (cstrAt t.m_chunks p)) ∧
    (t.m_id_to_str.length ≤ id → t.getById id = none ∧ t.resolveId id = none) ∧
    (∀ t2 : Table, StringView.default.c_str t2 = none ∧
      StringView.default.resolve t2 = none) := by
  refine ⟨fun hlt => ?_, fun hge => ?_, fun t2 => ⟨rfl, rfl⟩⟩
  · have hp : t.m_id_to_str[id]? = some (t.m_id_to_str[id]) := List.getElem?_eq_getElem hlt
    refine ⟨_, hp, getById_eq_some hp, h.inv.entries _ (List.getElem?_mem hp), ?_⟩
    unfold Table.resolveId
    rw [getById_eq_some hp]
    rfl
  · have hnone : t.getById id = none := by
      unfold Table.getById
      rw [if_neg (by omega)]
    refine ⟨hnone, ?_⟩
    unfold Table.resolveId
    rw [hnone]
    rfl

/-- C11 at a concrete input: identifiers 1 and 7 on the table holding "", "hello" and
"world". -/
theorem resolve_by_id_witness :
    Reachable demo ∧ demo.resolveId 1 = some hello ∧ demo.getById 7 = none ∧
    ((1 < demo.m_id_to_str.length →
      ∃ p, demo.m_id_to_str[1]? = some p ∧ demo.getById 1 = some p ∧
        EntryOk demo.m_chunks p ∧ demo.resolveId 1 = some (cstrAt demo.m_chunks p)) ∧
    (demo.m_id_to_str.length ≤ 1 → demo.getById 1 = none ∧ demo.resolveId 1 = none) ∧
    (∀ t2 : Table, StringView.default.c_str t2 = none ∧
      StringView.default.resolve t2 = none)) :=
  ⟨demo_reachable, by decide, by decide, resolve_by_id demo demo_reachable 1⟩

/-- C12, the code at the failing input: after `get("")` on a freshly constructed table,
identifier 1 is in range and the content stored at its pointer is the empty string, but
the value the content map associates with the empty string is 0, not 1. -/
theorem duplicate_empty_entry_breaks_registry :
    Reachable (Table.new.get []).1 ∧
    1 < (Table.new.get []).1.m_id_to_str.length ∧
    (Table.new.get []).1.resolveId 1 = some [] ∧
    (mapFind (Table.new.get []).1.m_chunks (Table.new.get []).1.m_str_to_id_map []).map
      (fun e => e.2) = some 0 ∧
    (Table.new.get []).1.m_str_to_id_map.length = 1 :=
  ⟨Reachable.step (Call.get []) Reachable.init (by unfold Addressable; decide),
    by decide, by decide, by decide, by decide⟩

/-- C13: in every reachable table state, every (key, id) entry of the content map has
`id` below the number of entries, the pointer stored at index `id` is the key pointer, so
the zero-terminated bytes at `pointer[id]` are the key's; consequently the handle of a
`find` hit carries the matching entry's identifier and resolves to the zero-terminated
content that was looked up (to `s` itself when `s` has no zero byte). -/
theorem map_entries_consistent (t : Table) (h : Reachable t) :
    (∀ e ∈ t.m_str_to_id_map, e.2 < t.m_id_to_str.length ∧
      t.m_id_to_str[e.2]? = some e.1 ∧ t.resolveId e.2 = some (cstrAt t.m_chunks e.1)) ∧
    (∀ (s : List Byte) (e : Ptr × Nat),
      mapFind t.m_chunks t.m_str_to_id_map (c_string s) = some e →
        t.find s = { m_table := true, m_id := e.2 } ∧
        (t.find s).resolve t = some (c_string s) ∧
        ((∀ b ∈ s, b ≠ 0) → (t.find s).resolve t = some s)) := by
  refine ⟨fun e he => ?_, fun s e hm => ?_⟩
  · have hidx := h.inv.map_ids e he
    refine ⟨h.inv.id_lt he, hidx, ?_⟩
    unfold Table.resolveId
    rw [getById_eq_some hidx]
    rfl
  · have hres : (t.find s).resolve t = some (c_string s) := by
      rw [find_of_some hm, resolve_mk (h.inv.map_ids e (mapFind_some hm).1),
        (mapFind_some hm).2]
    refine ⟨find_of_some hm, hres, fun hz => ?_⟩
    rw [hres, c_string_of_no_zero hz]

/-- C13 at a concrete input: the map entries of the table holding "", "hello" and
"world", and `find("world")`. -/
theorem map_entries_consistent_witness :
    Reachable demo ∧ (demo.find world).resolve demo = some world ∧
    ((∀ e ∈ demo.m_str_to_id_map, e.2 < demo.m_id_to_str.length ∧
      demo.m_id_to_str[e.2]? = some e.1 ∧
      demo.resolveId e.2 = some (cstrAt demo.m_chunks e.1)) ∧
    (∀ (s : List Byte) (e : Ptr × Nat),
      mapFind demo.m_chunks demo.m_str_to_id_map (c_string s) = some e →
        demo.find s = { m_table := true, m_id := e.2 } ∧
        (demo.find s).resolve demo = some (c_string s) ∧
        ((∀ b ∈ s, b ≠ 0) → (demo.find s).resolve demo = some s))) :=
  ⟨demo_reachable, by decide, map_entries_consistent demo demo_reachable⟩

/-! ## Alignment -/

theorem aligned_empty : Aligned Table.empty :=
  ⟨by intro c hc; simp [Table.empty] at hc, by intro p hp; simp [Table.empty] at hp⟩

theorem get_aligned {t : Table} (h : Inv t) (ha : Aligned t) {str : List Byte}
    (haddr : Addressable str) : Aligned (t.get str).1 := by
  have ho := get_outcome t str h.chunks_len h.ids_len
  generalize t.get str = r at ho
  cases ho with
  | hit _ => exact ha
  | reject _ _ => exact ha
  | full _ _ _ _ _ _ _ _ => exact ha
  | leak _ _ _ _ _ _ =>
    refine ⟨?_, ha.off⟩
    intro c hc
    rcases List.mem_append.mp hc with h1 | h1
    · exact ha.pos c h1
    · rw [List.mem_singleton.mp h1]; rfl
  | insert pre c _ _ hlt hcase hs =>
    have hi := insert_facts h haddr hcase hlt hs
    have hcpos : c.pos % ID_SIZE = 0 := by
      rcases hcase with hpc | ⟨_, hnew, _, _⟩
      · exact ha.pos c (by rw [hpc]; simp)
      · rw [hnew]; rfl
    have hpre : ∀ c2 ∈ pre, c2 ∈ t.m_chunks := by
      intro c2 hc2
      rcases hcase with hpc | ⟨hp, _, _, _⟩
      · rw [hpc]; exact List.mem_append_left _ hc2
      · rw [hp]; exact hc2
    refine ⟨?_, ?_⟩
    · intro c2 hc2
      rw [hi.chunks] at hc2
      rcases List.mem_append.mp hc2 with h1 | h1
      · exact ha.pos c2 (hpre c2 h1)
      · rw [List.mem_singleton.mp h1, hi.write.pos]
        have hmod := (Table.aligned_size_bounds haddr).2.2
        unfold ID_SIZE at hcpos ⊢
        omega
    · intro p hp
      rw [hi.ids] at hp
      rcases List.mem_append.mp hp with h1 | h1
      · exact ha.off p h1
      · rw [List.mem_singleton.mp h1]; exact hcpos

theorem aligned_new : Aligned Table.new :=
  get_aligned Inv.empty aligned_empty (by unfold Addressable SIZE_MOD ID_SIZE; simp)

theorem Reachable.aligned {t : Table} (h : Reachable t) : Aligned t := by
  induction h with
  | init => exact aligned_new
  | step c hr haddr ih =>
    cases c with
    | get s => exact get_aligned hr.inv ih haddr
    | find s => exact ih

/-- An entry with its terminator and padding ends at or before its chunk's cursor. -/
theorem entry_inside_aux {t : Table} (h : Inv t) (ha : Aligned t) {p : Ptr}
    (hp : p ∈ t.m_id_to_str) :
    ∃ c, t.m_chunks[p.chunk]? = some c ∧
      p.off + Table.aligned_size (cstrAt t.m_chunks p).length ≤ c.pos ∧
      c.pos + ID_SIZE ≤ CHUNK_SIZE := by
  obtain ⟨c, hc, hterm⟩ := h.entries p hp
  have hok := h.chunks_ok c (List.getElem?_mem hc)
  have hl := hterm.length_lt
  have hpos := hok.pos_le
  have h1 := ha.pos c (List.getElem?_mem hc)
  have h2 := ha.off p hp
  refine ⟨c, hc, ?_, hpos⟩
  simp only [cstrAt, hc]
  rw [Table.aligned_size_eq (by unfold ID_SIZE CHUNK_SIZE at *; unfold SIZE_MOD; omega)]
  unfold ID_SIZE at h1 h2
  omega

/-! ## Insertions, thresholds and `alloc_chunk` -/

/-- A call of `get` that changes the id -> pointer sequence ran the insertion path on a
well-formed chunk that had room. -/
theorem get_insert_event_aux {t : Table} (h : Inv t) {s : List Byte} (haddr : Addressable s)
    (hins : (t.get s).1.m_id_to_str ≠ t.m_id_to_str) :
    ∃ pre c, t.get s = (insertAt t pre c s, { m_table := true, m_id := t.m_id_to_str.length }) ∧
      c.has_space (Table.aligned_size s.length) = true ∧ ChunkOk c ∧ InsertFacts t pre c s := by
  have ho := get_outcome t s h.chunks_len h.ids_len
  generalize t.get s = r at ho hins
  cases ho with
  | hit _ => exact absurd rfl hins
  | reject _ _ => exact absurd rfl hins
  | full _ _ _ _ _ _ _ _ => exact absurd rfl hins
  | leak _ _ _ _ _ _ => exact absurd rfl hins
  | insert pre c _ _ hlt hcase hs =>
    have hcok : ChunkOk c := by
      rcases hcase with hpc | ⟨_, hnew, _, _⟩
      · exact h.chunks_ok c (by rw [hpc]; simp)
      · rw [hnew]; exact chunk_ok_new
    exact ⟨pre, c, rfl, hs, hcok, insert_facts h haddr hcase hlt hs⟩

theorem ChunkOk.tail_zero {c : StringData} (h : ChunkOk c) :
    ∀ b ∈ c.data.drop (CHUNK_SIZE - ID_SIZE), b = 0 := by
  intro b hb
  have hpos := h.pos_le
  have hsplit : CHUNK_SIZE - ID_SIZE = c.pos + (CHUNK_SIZE - ID_SIZE - c.pos) := by omega
  rw [hsplit, ← List.drop_drop] at hb
  exact h.zero b (List.mem_of_mem_drop hb)

/-- C14: in every reachable table state every chunk has a buffer of `CHUNK_SIZE` bytes and
a cursor with `0 <= pos <= CHUNK_SIZE`; every entry lies in one chunk, its start offset
plus the aligned length of its content is at most that chunk's cursor and so at most the
capacity; and every insertion writes at the old cursor of a chunk on which
`has_space(aligned_size)` held, the region ending at the new cursor inside the chunk. -/
theorem chunk_invariant (t : Table) (h : Reachable t) :
    (∀ c ∈ t.m_chunks, c.data.length = CHUNK_SIZE ∧ 0 ≤ c.pos ∧ c.pos ≤ CHUNK_SIZE) ∧
    (∀ p ∈ t.m_id_to_str, ∃ c, t.m_chunks[p.chunk]? = some c ∧
      p.off + Table.aligned_size (cstrAt t.m_chunks p).length ≤ c.pos ∧
      p.off + Table.aligned_size (cstrAt t.m_chunks p).length ≤ CHUNK_SIZE) ∧
    (∀ s : List Byte, Addressable s → (t.get s).1.m_id_to_str ≠ t.m_id_to_str →
      ∃ (p : Ptr) (old new : StringData),
        (t.get s).1.m_id_to_str = t.m_id_to_str ++ [p] ∧
        old.has_space (Table.aligned_size s.length) = true ∧ p.off = old.pos ∧
        (t.get s).1.m_chunks[p.chunk]? = some new ∧
        new.pos = p.off + Table.aligned_size s.length ∧
        p.off + Table.aligned_size s.length ≤ CHUNK_SIZE) := by
  refine ⟨fun c hc => ?_, fun p hp => ?_, fun s haddr hins => ?_⟩
  · have hok := h.inv.chunks_ok c hc
    have := hok.pos_le
    exact ⟨hok.len, Nat.zero_le _, by omega⟩
  · obtain ⟨c, hc, h1, h2⟩ := entry_inside_aux h.inv h.aligned hp
    exact ⟨c, hc, h1, by omega⟩
  · obtain ⟨pre, c, hget, hs, hcok, hi⟩ := get_insert_event_aux h.inv haddr hins
    have hsp := (hcok.space_iff _).mp hs
    rw [hget]
    have hle : c.pos + Table.aligned_size s.length ≤ CHUNK_SIZE := by omega
    refine ⟨⟨pre.length, c.pos⟩, c, _, hi.ids, hs, rfl, ?_, hi.write.pos, hle⟩
    show (insertAt t pre c s).m_chunks[pre.length]? = _
    rw [hi.chunks]
    exact List.getElem?_concat_length _ _

/-- C14 at a concrete input: the table holding "", "hello" and "world". -/
theorem chunk_invariant_witness :
    Reachable demo ∧ demo.m_chunks.length = 1 ∧
    ((∀ c ∈ demo.m_chunks, c.data.length = CHUNK_SIZE ∧ 0 ≤ c.pos ∧ c.pos ≤ CHUNK_SIZE) ∧
    (∀ p ∈ demo.m_id_to_str, ∃ c, demo.m_chunks[p.chunk]? = some c ∧
      p.off + Table.aligned_size (cstrAt demo.m_chunks p).length ≤ c.pos ∧
      p.off + Table.aligned_size (cstrAt demo.m_chunks p).length ≤ CHUNK_SIZE) ∧
    (∀ s : List Byte, Addressable s → (demo.get s).1.m_id_to_str ≠ demo.m_id_to_str →
      ∃ (p : Ptr) (old new : StringData),
        (demo.get s).1.m_id_to_str = demo.m_id_to_str ++ [p] ∧
        old.has_space (Table.aligned_size s.length) = true ∧ p.off = old.pos ∧
        (demo.get s).1.m_chunks[p.chunk]? = some new ∧
        new.pos = p.off + Table.aligned_size s.length ∧
        p.off + Table.aligned_size s.length ≤ CHUNK_SIZE)) :=
  ⟨demo_reachable, by decide, chunk_invariant demo demo_reachable⟩

/-- C15: in every reachable table state with fewer than 2^32 - 1 entries and fewer than
2^32 chunks, for every byte string `s` without a zero byte that no entry has as content,
`get(s)` returns a valid handle if and only if the aligned size of `s` is at most
`CHUNK_SIZE - sizeof(ID)` = 4092, that is if and only if its length is at most 4091; and
in every chunk, before and after the call, the cursor is at most 4092 and the last 4
bytes are zero (no entry occupies them). -/
theorem get_valid_iff_fits (t : Table) (h : Reachable t) (s : List Byte)
    (haddr : Addressable s) (hz : ∀ b ∈ s, b ≠ 0)
    (habs : ∀ i, i < t.m_id_to_str.length → t.resolveId i ≠ some s)
    (hids : t.m_id_to_str.length < ID_MAX) (hch : t.m_chunks.length < ID_MOD) :
    ((t.get s).2.toBool = true ↔ Table.aligned_size s.length ≤ CHUNK_SIZE - ID_SIZE) ∧
    (Table.aligned_size s.length ≤ CHUNK_SIZE - ID_SIZE ↔ s.length ≤ 4091) ∧
    (∀ c ∈ t.m_chunks, c.pos ≤ CHUNK_SIZE - ID_SIZE ∧
      ∀ b ∈ c.data.drop (CHUNK_SIZE - ID_SIZE), b = 0) ∧
    (∀ c ∈ (t.get s).1.m_chunks, c.pos ≤ CHUNK_SIZE - ID_SIZE ∧
      ∀ b ∈ c.data.drop (CHUNK_SIZE - ID_SIZE), b = 0) := by
  have hfind : t.find s = StringView.default :=
    find_default_of_absent_aux h.inv (by rw [c_string_of_no_zero hz]; exact habs)
  have hiff := get_fails_iff_aux h.inv h.first (s := s) (by rw [hfind]; rfl)
  have hchunk : ∀ t2 : Table, Inv t2 → ∀ c ∈ t2.m_chunks, c.pos ≤ CHUNK_SIZE - ID_SIZE ∧
      ∀ b ∈ c.data.drop (CHUNK_SIZE - ID_SIZE), b = 0 := by
    intro t2 h2 c hc
    have hok := h2.chunks_ok c hc
    have := hok.pos_le
    exact ⟨by omega, hok.tail_zero⟩
  refine ⟨?_, ?_, hchunk t h.inv, hchunk _ (get_inv h.inv haddr)⟩
  · constructor
    · intro hv
      by_contra hc
      have := hiff.mpr (Or.inl (by omega))
      rw [hv] at this; cases this
    · intro hfit
      cases hv : (t.get s).2.toBool with
      | true => rfl
      | false =>
        exfalso
        rcases hiff.mp hv with h1 | h1 | ⟨h1, _⟩ <;> omega
  · rw [Table.aligned_size_eq haddr]
    unfold CHUNK_SIZE ID_SIZE
    omega

theorem hello_no_zero : ∀ b ∈ hello, b ≠ 0 := by
  simp [hello]

/-- C15 at a concrete input: "hello" on a freshly constructed table. -/
theorem get_valid_iff_fits_witness :
    Reachable Table.new ∧ Addressable hello ∧ (∀ b ∈ hello, b ≠ 0) ∧
    (∀ i, i < Table.new.m_id_to_str.length → Table.new.resolveId i ≠ some hello) ∧
    Table.new.m_id_to_str.length < ID_MAX ∧ Table.new.m_chunks.length < ID_MOD ∧
    (((Table.new.get hello).2.toBool = true ↔
        Table.aligned_size hello.length ≤ CHUNK_SIZE - ID_SIZE) ∧
    (Table.aligned_size hello.length ≤ CHUNK_SIZE - ID_SIZE ↔ hello.length ≤ 4091) ∧
    (∀ c ∈ Table.new.m_chunks, c.pos ≤ CHUNK_SIZE - ID_SIZE ∧
      ∀ b ∈ c.data.drop (CHUNK_SIZE - ID_SIZE), b = 0) ∧
    (∀ c ∈ (Table.new.get hello).1.m_chunks, c.pos ≤ CHUNK_SIZE - ID_SIZE ∧
      ∀ b ∈ c.data.drop (CHUNK_SIZE - ID_SIZE), b = 0)) :=
  ⟨Reachable.init, by unfold Addressable; decide, hello_no_zero, by decide, by decide,
    by decide,
    get_valid_iff_fits Table.new Reachable.init hello (by unfold Addressable; decide)
      hello_no_zero (by decide) (by decide) (by decide)⟩

theorem new_chunk_zero : ∀ b ∈ StringData.new.data, b = 0 := by
  intro b hb
  have hb2 : b ∈ List.replicate CHUNK_SIZE (0 : Byte) := hb
  exact (List.mem_replicate.mp hb2).2

/-- C16: for every table whose chunk vector holds fewer than 2^32 chunks, when the vector
is non-empty and its last chunk has `has_space(n)`, `alloc_chunk(n)` leaves the table
unchanged and returns the index of the last chunk; otherwise it appends exactly one fresh
chunk (cursor 0, `CHUNK_SIZE` zero bytes) and returns its index.  In both cases the index
returned is that of the last chunk, the chunks that existed are still there, unmodified
and in place, and the id -> pointer sequence and the content map are untouched. -/
theorem alloc_chunk_last_only (t : Table) (n : Nat) (hlen : t.m_chunks.length < ID_MOD) :
    ((∃ back, t.m_chunks.getLast? = some back ∧ back.has_space n = true) →
      t.alloc_chunk n = (t, t.m_chunks.length - 1)) ∧
    ((∀ back, t.m_chunks.getLast? = some back → back.has_space n = false) →
      t.alloc_chunk n =
        ({ t with m_chunks := t.m_chunks ++ [StringData.new] }, t.m_chunks.length)) ∧
    (StringData.new.pos = 0 ∧ StringData.new.data.length = CHUNK_SIZE ∧
      ∀ b ∈ StringData.new.data, b = 0) ∧
    (t.alloc_chunk n).2 + 1 = (t.alloc_chunk n).1.m_chunks.length ∧
    (t.alloc_chunk n).1.m_chunks.take t.m_chunks.length = t.m_chunks ∧
    (t.alloc_chunk n).1.m_id_to_str = t.m_id_to_str ∧
    (t.alloc_chunk n).1.m_str_to_id_map = t.m_str_to_id_map := by
  have ho := alloc_chunk_outcome t (Nat.le_of_lt hlen) n
  generalize t.alloc_chunk n = r at ho
  cases ho with
  | reuse pre c hpc hs =>
    have hl : t.m_chunks.length = pre.length + 1 := by rw [hpc]; simp
    have hlast : t.m_chunks.getLast? = some c := by rw [hpc]; exact List.getLast?_concat _
    refine ⟨fun _ => by rw [hl]; rfl, fun hno => ?_,
      ⟨rfl, chunk_ok_new.len, new_chunk_zero⟩, by simp [hl], by simp, rfl, rfl⟩
    have := hno c hlast
    rw [hs] at this; cases this
  | full pre c hpc hs hfull => omega
  | fresh hlacks hmax =>
    refine ⟨fun hex => ?_, fun _ => rfl,
      ⟨rfl, chunk_ok_new.len, new_chunk_zero⟩, by simp, by simp, rfl, rfl⟩
    obtain ⟨back, hb, hsb⟩ := hex
    have := hlacks back hb
    rw [hsb] at this; cases this

/-- C16 at a concrete input: a request for 8 bytes on a freshly constructed table, whose
only chunk has room. -/
theorem alloc_chunk_last_only_witness :
    Table.new.m_chunks.length < ID_MOD ∧ Table.new.alloc_chunk 8 = (Table.new, 0) ∧
    (((∃ back, Table.new.m_chunks.getLast? = some back ∧ back.has_space 8 = true) →
      Table.new.alloc_chunk 8 = (Table.new, Table.new.m_chunks.length - 1)) ∧
    ((∀ back, Table.new.m_chunks.getLast? = some back → back.has_space 8 = false) →
      Table.new.alloc_chunk 8 =
        ({ Table.new with m_chunks := Table.new.m_chunks ++ [StringData.new] },
          Table.new.m_chunks.length)) ∧
    (StringData.new.pos = 0 ∧ StringData.new.data.length = CHUNK_SIZE ∧
      ∀ b ∈ StringData.new.data, b = 0) ∧
    (Table.new.alloc_chunk 8).2 + 1 = (Table.new.alloc_chunk 8).1.m_chunks.length ∧
    (Table.new.alloc_chunk 8).1.m_chunks.take Table.new.m_chunks.length
      = Table.new.m_chunks ∧
    (Table.new.alloc_chunk 8).1.m_id_to_str = Table.new.m_id_to_str ∧
    (Table.new.alloc_chunk 8).1.m_str_to_id_map = Table.new.m_str_to_id_map) :=
  ⟨by decide, by rfl, alloc_chunk_last_only Table.new 8 (by decide)⟩

/-- C17: whenever `write(bytes, raw_length, aligned_length)` is called as `get` calls it,
on a chunk of a reachable table state or on the fresh chunk `alloc_chunk` appended, with
`has_space(aligned_length)` and `raw_length < aligned_length`, then afterwards the region
from the old cursor of length `aligned_length` holds the input bytes followed by
`aligned_length - raw_length` (at least one) zero bytes, the cursor has advanced by
`aligned_length`, the returned pointer is the old cursor, the bytes before the old cursor
and the buffer size are unchanged; every byte from the cursor on was zero before the call
and is zero after it. -/
theorem write_postcondition (t : Table) (h : Reachable t) (c : StringData)
    (hc : c ∈ t.m_chunks ∨ c = StringData.new) (bytes : List Byte) (a : Nat)
    (hraw : bytes.length < a) (hs : c.has_space a = true) :
    ((c.write bytes bytes.length a).1.data.drop c.pos).take a
      = bytes ++ List.replicate (a - bytes.length) 0 ∧
    1 ≤ a - bytes.length ∧
    (c.write bytes bytes.length a).1.pos = c.pos + a ∧
    (c.write bytes bytes.length a).2 = c.pos ∧
    (c.write bytes bytes.length a).1.data.take c.pos = c.data.take c.pos ∧
    (c.write bytes bytes.length a).1.data.length = c.data.length ∧
    (∀ b ∈ c.data.drop c.pos, b = 0) ∧
    (∀ b ∈ (c.write bytes bytes.length a).1.data.drop (c.write bytes bytes.length a).1.pos,
      b = 0) := by
  have hcok : ChunkOk c := by
    rcases hc with h1 | h1
    · exact h.inv.chunks_ok c h1
    · rw [h1]; exact chunk_ok_new
  have hsp := (hcok.space_iff a).mp hs
  have hl : bytes.length % ID_MOD = bytes.length :=
    Nat.mod_eq_of_lt (by unfold ID_MOD; unfold ID_SIZE CHUNK_SIZE at hsp; omega)
  have ha : a % ID_MOD = a :=
    Nat.mod_eq_of_lt (by unfold ID_MOD; unfold ID_SIZE CHUNK_SIZE at hsp; omega)
  have hw := write_facts hcok bytes a hraw hsp
  rw [hl, ha] at hw
  have hpad : ((c.write bytes bytes.length a).1.data.drop (c.pos + bytes.length)).take
      (a - bytes.length) = List.replicate (a - bytes.length) 0 := by
    refine List.eq_replicate_iff.mpr ⟨?_, hw.pad⟩
    rw [List.length_take, List.length_drop, hw.ok.len]
    unfold ID_SIZE at hsp
    omega
  refine ⟨?_, by omega, hw.pos, hw.off, hw.pre, by rw [hw.ok.len, hcok.len], hcok.zero,
    hw.ok.zero⟩
  have htake : ∀ l : List Byte,
      l.take a = l.take bytes.length ++ (l.drop bytes.length).take (a - bytes.length) := by
    intro l
    rw [← List.take_add]
    congr 1
    omega
  rw [htake, hw.raw, List.drop_drop, hpad]

/-- C17 at a concrete input: writing "hello" with aligned length 8 into the only chunk of
a freshly constructed table. -/
theorem write_postcondition_witness :
    Reachable Table.new ∧ (5 : Nat) < 8 ∧ StringData.new.has_space 8 = true ∧
    (((StringData.new.write hello hello.length 8).1.data.drop StringData.new.pos).take 8
      = hello ++ List.replicate (8 - hello.length) 0 ∧
    1 ≤ 8 - hello.length ∧
    (StringData.new.write hello hello.length 8).1.pos = StringData.new.pos + 8 ∧
    (StringData.new.write hello hello.length 8).2 = StringData.new.pos ∧
    (StringData.new.write hello hello.length 8).1.data.take StringData.new.pos
      = StringData.new.data.take StringData.new.pos ∧
    (StringData.new.write hello hello.length 8).1.data.length = StringData.new.data.length ∧
    (∀ b ∈ StringData.new.data.drop StringData.new.pos, b = 0) ∧
    (∀ b ∈ (StringData.new.write hello hello.length 8).1.data.drop
      (StringData.new.write hello hello.length 8).1.pos, b = 0)) :=
  ⟨Reachable.init, by decide, by decide,
    write_postcondition Table.new Reachable.init StringData.new (Or.inr rfl) hello 8
      (by decide) (by decide)⟩

/-- C18: for every chunk of every reachable table state and every `n`, `has_space(n)` is
true if and only if `n <= CHUNK_SIZE - sizeof(ID) - pos` over the integers, that is if and
only if `pos + n + 4 <= 4096`; the `size_t` subtraction `chunk_size - sizeof(ID) - pos`
does not wrap around: its value is the integer difference, because `pos <= 4092`. -/
theorem has_space_arith (t : Table) (h : Reachable t) (c : StringData) (hc : c ∈ t.m_chunks)
    (n : Nat) :
    (c.has_space n = true ↔
      (n : Int) ≤ (CHUNK_SIZE : Int) - (ID_SIZE : Int) - (c.pos : Int)) ∧
    (c.has_space n = true ↔ c.pos + n + 4 ≤ 4096) ∧
    ((((CHUNK_SIZE - ID_SIZE) + (SIZE_MOD - c.pos % SIZE_MOD)) % SIZE_MOD : Nat) : Int)
      = (CHUNK_SIZE : Int) - (ID_SIZE : Int) - (c.pos : Int) ∧
    c.pos ≤ CHUNK_SIZE - ID_SIZE := by
  have hok := h.inv.chunks_ok c hc
  have hpos := hok.pos_le
  have hiff := hok.space_iff n
  unfold ID_SIZE CHUNK_SIZE at hpos hiff
  refine ⟨?_, ?_, ?_, ?_⟩
  · rw [hiff]; unfold ID_SIZE CHUNK_SIZE; omega
  · rw [hiff]
  · unfold ID_SIZE CHUNK_SIZE SIZE_MOD; omega
  · unfold ID_SIZE CHUNK_SIZE; omega

/-- C18 at a concrete input: the only chunk of a freshly constructed table, whose cursor
is 4, and a request for 4088 bytes. -/
theorem has_space_arith_witness :
    Reachable Table.new ∧
    (∀ c ∈ Table.new.m_chunks,
      (c.has_space 4088 = true ↔
        ((4088 : Nat) : Int) ≤ (CHUNK_SIZE : Int) - (ID_SIZE : Int) - (c.pos : Int)) ∧
      (c.has_space 4088 = true ↔ c.pos + 4088 + 4 ≤ 4096) ∧
      ((((CHUNK_SIZE - ID_SIZE) + (SIZE_MOD - c.pos % SIZE_MOD)) % SIZE_MOD : Nat) : Int)
        = (CHUNK_SIZE : Int) - (ID_SIZE : Int) - (c.pos : Int) ∧
      c.pos ≤ CHUNK_SIZE - ID_SIZE) :=
  ⟨Reachable.init, fun c hc => has_space_arith Table.new Reachable.init c hc 4088⟩

/-- Beyond the lengths a caller can pass the `size_t` addition of the padding wraps
around: at length `2^64 - 2` the computation yields 0. -/
theorem aligned_size_wraps_at_top :
    18446744073709551614 + 1 < SIZE_MOD ∧
    Table.aligned_size 18446744073709551614 = 0 ∧
    ¬ (18446744073709551614 + 1 ≤ Table.aligned_size 18446744073709551614) := by
  decide

/-- C19: for every string length `L` a caller can pass (the string with its terminator and
padding is counted in `size_t`: `L + 4 < 2^64`, which every `std::string::size()` and
`strlen` result satisfies), the `aligned_size` that `get` computes with the mask
`(L + 1) & (sizeof(ID) - 1)` is the smallest multiple of 4 that is `>= L + 1`: it is a
multiple of 4 with `L + 1 <= aligned_size <= L + 4`, and no smaller multiple of 4 is
`>= L + 1`. -/
theorem aligned_size_rounds_up (n : Nat) (h : n + ID_SIZE < SIZE_MOD) :
    Table.aligned_size n % 4 = 0 ∧ n + 1 ≤ Table.aligned_size n ∧
    Table.aligned_size n ≤ n + 4 ∧
    (∀ m, m % 4 = 0 → n + 1 ≤ m → Table.aligned_size n ≤ m) ∧
    Table.aligned_size n = (n + 4) / 4 * 4 := by
  have heq := Table.aligned_size_eq h
  rw [heq]
  refine ⟨by omega, by omega, by omega, fun m hm hle => by omega, rfl⟩

/-- C19 at concrete inputs: lengths 5 and 7 both round to 8. -/
theorem aligned_size_rounds_up_witness :
    5 + ID_SIZE < SIZE_MOD ∧ Table.aligned_size 5 = 8 ∧ Table.aligned_size 7 = 8 ∧
    (Table.aligned_size 5 % 4 = 0 ∧ 5 + 1 ≤ Table.aligned_size 5 ∧
    Table.aligned_size 5 ≤ 5 + 4 ∧
    (∀ m, m % 4 = 0 → 5 + 1 ≤ m → Table.aligned_size 5 ≤ m) ∧
    Table.aligned_size 5 = (5 + 4) / 4 * 4) :=
  ⟨by decide, by decide, by decide, aligned_size_rounds_up 5 (by decide)⟩

/-! ## `get` as two atomic steps -/

/-- The method `get` is the lookup followed, on a miss, by the insertion part. -/
theorem get_eq_find_then_insert (t : Table) (str : List Byte) :
    t.get str = if (t.find str).toBool then (t, t.find str) else t.get_insert str := rfl

/-- The insertion part succeeds, without looking the string up, whenever the string fits
a chunk and the identifier and chunk limits are not reached. -/
theorem get_insert_ok {t : Table} (h : Inv t) {str : List Byte} (haddr : Addressable str)
    (hfit : Table.aligned_size str.length ≤ CHUNK_SIZE - ID_SIZE)
    (hids : t.m_id_to_str.length < ID_MAX) (hch : t.m_chunks.length ≤ ID_MAX) :
    ∃ pre c, t.get_insert str
        = (insertAt t pre c str, { m_table := true, m_id := t.m_id_to_str.length }) ∧
      InsertFacts t pre c str ∧ pre.length ≤ t.m_chunks.length := by
  simp only [Table.get_insert]
  have ha : Table.aligned_size str.length ≤ CHUNK_SIZE := by omega
  have hrej : ¬ ((Table.aligned_size str.length > CHUNK_SIZE
      || Table.aligned_size str.length > ID_MAX || t.m_id_to_str.length == ID_MAX) = true) := by
    simp only [Bool.or_eq_true, decide_eq_true_eq, beq_iff_eq, not_or, not_lt, gt_iff_lt]
    refine ⟨⟨ha, ?_⟩, by omega⟩
    unfold CHUNK_SIZE at ha; unfold ID_MAX; omega
  rw [if_neg hrej]
  have ham : Table.aligned_size str.length % ID_MOD = Table.aligned_size str.length :=
    Nat.mod_eq_of_lt (by unfold CHUNK_SIZE at ha; unfold ID_MOD; omega)
  have hidm : t.m_id_to_str.length % ID_MOD = t.m_id_to_str.length :=
    Nat.mod_eq_of_lt (by unfold ID_MAX at hids; unfold ID_MOD; omega)
  have hao := alloc_chunk_outcome t h.chunks_len (Table.aligned_size str.length)
  simp only [ham]
  generalize t.alloc_chunk (Table.aligned_size str.length) = r at hao
  cases hao with
  | reuse pre c hpc hs =>
    simp only [hpc, List.getElem?_concat_length, hs, Bool.not_true, Bool.false_eq_true,
      if_false, hidm]
    have hset : (pre ++ [c]).set pre.length
        (c.write str (str.length % ID_MOD) (Table.aligned_size str.length)).1
        = pre ++ [(c.write str (str.length % ID_MOD) (Table.aligned_size str.length)).1] := by
      simp
    rw [hset]
    refine ⟨pre, c, ?_, insert_facts h haddr (Or.inl hpc) hids hs, ?_⟩
    · simp only [insertAt, ham, StringData.write]
    · simp
  | full pre c hpc hs hfull =>
    exfalso; unfold ID_MAX at hch; unfold ID_MOD at hfull; omega
  | fresh hlacks hmax =>
    have hs : StringData.new.has_space (Table.aligned_size str.length) = true := by
      refine (chunk_ok_new.space_iff _).mpr ?_
      have hp : StringData.new.pos = 0 := rfl
      rw [hp]; unfold ID_SIZE CHUNK_SIZE at hfit ⊢; omega
    simp only [List.getElem?_concat_length, hs, Bool.not_true, Bool.false_eq_true, if_false,
      hidm]
    have hset : (t.m_chunks ++ [StringData.new]).set t.m_chunks.length
        (StringData.new.write str (str.length % ID_MOD) (Table.aligned_size str.length)).1
        = t.m_chunks ++ [(StringData.new.write str (str.length % ID_MOD)
          (Table.aligned_size str.length)).1] := by
      simp
    rw [hset]
    refine ⟨t.m_chunks, StringData.new, ?_,
      insert_facts h haddr (Or.inr ⟨rfl, rfl, hmax, hlacks⟩) hids hs, Nat.le_refl _⟩
    simp only [insertAt, ham, StringData.write]

/-- Two insertions of the same string in a row, neither preceded by a lookup. -/
theorem double_insert_aux {t : Table} (h : Inv t) {s : List Byte} (haddr : Addressable s)
    (hfit : Table.aligned_size s.length ≤ CHUNK_SIZE - ID_SIZE)
    (hids : t.m_id_to_str.length + 1 < ID_MAX) (hch : t.m_chunks.length < ID_MAX) :
    (t.get_insert s).2 = { m_table := true, m_id := t.m_id_to_str.length } ∧
    ((t.get_insert s).1.get_insert s).2
      = { m_table := true, m_id := t.m_id_to_str.length + 1 } ∧
    ((t.get_insert s).1.get_insert s).1.m_id_to_str.length = t.m_id_to_str.length + 2 ∧
    ((t.get_insert s).1.get_insert s).1.resolveId t.m_id_to_str.length
      = some (c_string s) ∧
    ((t.get_insert s).1.get_insert s).1.resolveId (t.m_id_to_str.length + 1)
      = some (c_string s) := by
  obtain ⟨pre, c, hg1, hi1, hp1⟩ := get_insert_ok h haddr hfit (by omega) (by omega)
  have hlen1 : (insertAt t pre c s).m_id_to_str.length = t.m_id_to_str.length + 1 := by
    rw [hi1.ids]; simp
  have hch1 : (insertAt t pre c s).m_chunks.length ≤ ID_MAX := by
    rw [hi1.chunks]; simp; omega
  obtain ⟨pre2, c2, hg2, hi2, _⟩ :=
    get_insert_ok hi1.inv haddr hfit (by rw [hlen1]; exact hids) hch1
  rw [hg1]
  simp only
  rw [hg2]
  simp only
  have hids2 : (insertAt (insertAt t pre c s) pre2 c2 s).m_id_to_str
      = t.m_id_to_str ++ [⟨pre.length, c.pos⟩] ++ [⟨pre2.length, c2.pos⟩] := by
    rw [hi2.ids, hi1.ids]
  have hidx1 : (insertAt (insertAt t pre c s) pre2 c2 s).m_id_to_str[t.m_id_to_str.length]?
      = some ⟨pre.length, c.pos⟩ := by
    rw [hids2, List.getElem?_append_left (by simp), List.getElem?_concat_length]
  have hidx2 : (insertAt (insertAt t pre c s) pre2 c2 s).m_id_to_str[t.m_id_to_str.length + 1]?
      = some ⟨pre2.length, c2.pos⟩ := by
    rw [hids2]
    have : t.m_id_to_str.length + 1 = (t.m_id_to_str ++ [(⟨pre.length, c.pos⟩ : Ptr)]).length := by
      simp
    rw [this, List.getElem?_concat_length]
  refine ⟨trivial, by rw [hlen1], by rw [hids2]; simp, ?_, ?_⟩
  · unfold Table.resolveId
    rw [getById_eq_some hidx1]
    simp only [Option.map_some']
    rw [(hi1.entry.extend hi2.extend).2, hi1.content]
  · unfold Table.resolveId
    rw [getById_eq_some hidx2]
    simp only [Option.map_some']
    rw [hi2.content]

/-- C20: with `get` split into its two atomic steps, the lookup under the shared lock and
the unconditional insertion under the exclusive lock, the interleaving
lookup 1, lookup 2, insertion 1, insertion 2 of two `get(s)` calls for a string `s` that
the table does not yet resolve makes both lookups miss and the two calls return the
different identifiers `n` and `n + 1` (`n` the number of entries before), both of which
resolve to the content of `s`: the same content is stored twice. -/
theorem check_then_act_race (t : Table) (h : Reachable t) (s : List Byte)
    (haddr : Addressable s) (hmiss : (t.find s).toBool = false)
    (hfit : Table.aligned_size s.length ≤ CHUNK_SIZE - ID_SIZE)
    (hids : t.m_id_to_str.length + 1 < ID_MAX) (hch : t.m_chunks.length < ID_MAX) :
    Race.run [false, true]
        { table := t, first := GetThread.start s, second := GetThread.start s }
      = { table := t, first := GetThread.missed s, second := GetThread.missed s } ∧
    (Race.run [false, true, false, true]
        { table := t, first := GetThread.start s, second := GetThread.start s }).first
      = GetThread.done { m_table := true, m_id := t.m_id_to_str.length } ∧
    (Race.run [false, true, false, true]
        { table := t, first := GetThread.start s, second := GetThread.start s }).second
      = GetThread.done { m_table := true, m_id := t.m_id_to_str.length + 1 } ∧
    (Race.run [false, true, false, true]
        { table := t, first := GetThread.start s, second := GetThread.start s }).table.resolveId
      t.m_id_to_str.length = some (c_string s) ∧
    (Race.run [false, true, false, true]
        { table := t, first := GetThread.start s, second := GetThread.start s }).table.resolveId
      (t.m_id_to_str.length + 1) = some (c_string s) ∧
    (Race.run [false, true, false, true]
        { table := t, first := GetThread.start s, second := GetThread.start s }
      ).table.m_id_to_str.length = t.m_id_to_str.length + 2 := by
  obtain ⟨h1, h2, h3, h4, h5⟩ := double_insert_aux h.inv haddr hfit hids hch
  simp only [Race.run, GetThread.step, hmiss, Bool.false_eq_true, if_false]
  exact ⟨trivial, by rw [h1], by rw [h2], h4, h5, h3⟩

/-- C20 at a concrete input: two threads calling `get("hello")` on a freshly constructed
table end with identifiers 1 and 2 under the interleaved schedule, while the schedule
that lets the first call finish before the second starts gives identifier 1 twice. -/
theorem check_then_act_race_witness :
    Reachable Table.new ∧ Addressable hello ∧ (Table.new.find hello).toBool = false ∧
    Table.aligned_size hello.length ≤ CHUNK_SIZE - ID_SIZE ∧
    Table.new.m_id_to_str.length + 1 < ID_MAX ∧ Table.new.m_chunks.length < ID_MAX ∧
    (Race.run [false, false, true, true]
        { table := Table.new, first := GetThread.start hello,
          second := GetThread.start hello }).second
      = GetThread.done { m_table := true, m_id := 1 } ∧
    (Race.run [false, true]
        { table := Table.new, first := GetThread.start hello,
          second := GetThread.start hello }
      = { table := Table.new, first := GetThread.missed hello,
          second := GetThread.missed hello } ∧
    (Race.run [false, true, false, true]
        { table := Table.new, first := GetThread.start hello,
          second := GetThread.start hello }).first
      = GetThread.done { m_table := true, m_id := Table.new.m_id_to_str.length } ∧
    (Race.run [false, true, false, true]
        { table := Table.new, first := GetThread.start hello,
          second := GetThread.start hello }).second
      = GetThread.done { m_table := true, m_id := Table.new.m_id_to_str.length + 1 } ∧
    (Race.run [false, true, false, true]
        { table := Table.new, first := GetThread.start hello,
          second := GetThread.start hello }).table.resolveId
      Table.new.m_id_to_str.length = some (c_string hello) ∧
    (Race.run [false, true, false, true]
        { table := Table.new, first := GetThread.start hello,
          second := GetThread.start hello }).table.resolveId
      (Table.new.m_id_to_str.length + 1) = some (c_string hello) ∧
    (Race.run [false, true, false, true]
        { table := Table.new, first := GetThread.start hello,
          second := GetThread.start hello }
      ).table.m_id_to_str.length = Table.new.m_id_to_str.length + 2) :=
  ⟨Reachable.init, by unfold Addressable; decide, by decide, by decide, by decide, by decide,
    by decide,
    check_then_act_race Table.new Reachable.init hello (by unfold Addressable; decide)
      (by decide) (by decide) (by decide) (by decide)⟩

end string_table
